import Mathlib

/-!
Shallow embedding of the COBOL-tooling pipeline (normalization, copybook
expansion, data-dictionary construction, paragraph/call scanning, usage
scanning, call-graph analytics) together with proofs about the embedded
functions.

Lines of the fixed-format listings are modelled as `List Char`; the Python
string primitives used by the scripts (slicing, `strip`, `split`, `upper`,
`ljust`, `replace`, `rstrip` of a set of characters) are reproduced below.
Python's `str.upper`/`str.isalnum` are Unicode-aware; the sources in scope
are ASCII (latin-1 COBOL listings), so the ASCII versions are used here.
-/

namespace Py

/-- Convert a Lean string literal to the `List Char` line representation. -/
def S (s : String) : List Char := s.data

/-- Python `str.isspace` set for the characters occurring in the listings. -/
def isSpace (c : Char) : Bool := c = ' ' || c = '\t' || c = '\n' || c = '\r'

/-- ASCII uppercasing, as Python `str.upper` acts on the ASCII subset. -/
def upperC (c : Char) : Char := c.toUpper

/-- Python `s.upper()` on ASCII text. -/
def upperL (l : List Char) : List Char := l.map upperC

/-- ASCII letter test. -/
def isAlpha (c : Char) : Bool :=
  ('A' ≤ c && c ≤ 'Z') || ('a' ≤ c && c ≤ 'z')

/-- ASCII digit test. -/
def isDigit (c : Char) : Bool := '0' ≤ c && c ≤ '9'

/-- Python `str.isalnum` on ASCII text. -/
def isAlnum (c : Char) : Bool := isAlpha c || isDigit c

/-- Python `s.lstrip()`. -/
def lstripL (l : List Char) : List Char := l.dropWhile (fun c => isSpace c)

/-- Python `s.rstrip()`. -/
def rstripL (l : List Char) : List Char := (lstripL l.reverse).reverse

/-- Python `s.strip()`. -/
def stripL (l : List Char) : List Char := rstripL (lstripL l)

/-- Python `s.rstrip(chars)` for an explicit character set. -/
def rstripCharsL (cs : List Char) (l : List Char) : List Char :=
  ((l.reverse).dropWhile (fun c => cs.contains c)).reverse

/-- Python slicing `s[a:b]` (with the usual clamping semantics). -/
def sliceL (l : List Char) (a b : Nat) : List Char := (l.take b).drop a

/-- Python `s[a:]`. -/
def dropSliceL (l : List Char) (a : Nat) : List Char := l.drop a

/-- Python `s.ljust(n)` with spaces. -/
def ljustL (n : Nat) (l : List Char) : List Char :=
  l ++ List.replicate (n - l.length) ' '

/-- Python `s.startswith(p)`. -/
def startsWith : List Char → List Char → Bool
  | [], _ => true
  | _ :: _, [] => false
  | p :: ps, c :: cs => p = c && startsWith ps cs

/-- Python `s.endswith(p)`. -/
def endsWith (p l : List Char) : Bool := startsWith p.reverse l.reverse

/-- Substring test: `p in l` in Python. -/
def containsSub (p : List Char) : List Char → Bool
  | [] => startsWith p []
  | c :: cs => startsWith p (c :: cs) || containsSub p cs

/-- Worker for `splitWS`: `acc` is the current token, reversed. -/
def splitWSGo : List Char → List Char → List (List Char)
  | acc, [] => if acc.isEmpty then [] else [acc.reverse]
  | acc, c :: cs =>
    if isSpace c then
      if acc.isEmpty then splitWSGo [] cs else acc.reverse :: splitWSGo [] cs
    else splitWSGo (c :: acc) cs

/-- Python `s.split()`: split on runs of whitespace, dropping empty pieces. -/
def splitWS (l : List Char) : List (List Char) := splitWSGo [] l

/-- Python `s.replace(old, new)` for all characters in `old` replaced:
here the single-character variant `s.replace(".", " ")`. -/
def replaceDotSpace (l : List Char) : List Char :=
  l.map (fun c => if c = '.' then ' ' else c)

/-- Worker for `replaceAll`, fuel-indexed: every step consumes at least
one character of the scanned text, so `l.length + 1` units suffice. -/
def replaceAllGo (old new : List Char) : Nat → List Char → List Char
  | 0, l => l
  | _ + 1, [] => []
  | f + 1, c :: cs =>
    if startsWith old (c :: cs) && !old.isEmpty then
      new ++ replaceAllGo old new f ((c :: cs).drop old.length)
    else
      c :: replaceAllGo old new f cs

/-- Python `str.replace(old, new)`: replace non-overlapping occurrences
left to right. Requires `old ≠ []` at call sites (the sources guard this). -/
def replaceAll (old new l : List Char) : List Char :=
  replaceAllGo old new (l.length + 1) l

/-- Zero-padded decimal rendering, Python `f"{n:06d}"` for natural `n`. -/
def pad6 (n : Nat) : List Char :=
  let s := (toString n).data
  List.replicate (6 - s.length) '0' ++ s

/-- Case-insensitive ASCII prefix test (regex literal with IGNORECASE). -/
def startsWithCI (p l : List Char) : Bool := startsWith (upperL p) (upperL l)

end Py

/-!
Embedding of `src/scripts/pipeline/normalize_file.py`: the filtering and
renumbering stage of `normalize_file` (steps 3 and 4 of the pipeline; the
optional copybook expansion of step 2 is a separate function, embedded in
the `PipelineCopyExpander` namespace, and the surrounding file I/O is out
of scope). Each raw input line is a `List Char`.
-/

namespace PipelineNormalize

open Py

/-- Python `raw.rstrip("\n")`. -/
def rstripNl (raw : List Char) : List Char := rstripCharsL [ '\n' ] raw

/-- Forcing a line to exactly 80 columns, as in the loop body
(`line.ljust(80)` when shorter, `line[:80]` otherwise). -/
def force80 (l : List Char) : List Char :=
  if l.length < 80 then ljustL 80 l else l.take 80

/-- Embedding of `_is_copy_sentinel(line80)`: true when the 80-column line
has an asterisk in column 7 and columns 7-72, trimmed and uppercased, start
with the copybook sentinel marker text. -/
def is_copy_sentinel (line80 : List Char) : Bool :=
  if line80.length < 7 then false
  else if line80.getD 6 ' ' ≠ '*' then false
  else
    let chunk := upperL (stripL (sliceL line80 6 72))
    startsWith (S "*COPYBOOK ") chunk || startsWith (S "*END COPYBOOK") chunk

/-- Per-line filter of the step-3 loop of `normalize_file`: the conjunction
of the four `continue` tests applied in source order (debug-marker SMASH
filter on the raw line, JCL `//` filter, comment-unless-sentinel filter,
and blank-code-zone filter on the 80-column line). -/
def keep_line (raw : List Char) : Bool :=
  let raw_line := rstripNl raw
  if startsWith (S "SMASH") (lstripL raw_line) then false
  else
    let line := force80 raw_line
    if startsWith (S "//") line then false
    else
      let indicator := if line.length > 6 then line.getD 6 ' ' else ' '
      let is_sent := is_copy_sentinel line
      if indicator = '*' && !is_sent then false
      else if stripL (sliceL line 7 72) = [] then false
      else true

/-- Output line built for a kept raw line at sequence number `seq`:
six-digit sequence, columns 7-72 preserved, eight blank columns, newline. -/
def emit_line (seq : Nat) (raw : List Char) : List Char :=
  let line := force80 (rstripNl raw)
  pad6 seq ++ sliceL line 6 72 ++ List.replicate 8 ' ' ++ [ '\n' ]

/-- Embedding of the step-3/4 loop of `normalize_file`: filter, renumber
from `seq`, and stop early once the sequence counter passes 999999. -/
def normalize_lines : Nat → List (List Char) → List (List Char)
  | _, [] => []
  | seq, raw :: rest =>
    if keep_line raw then
      let nl := emit_line seq raw
      if seq + 1 > 999999 then [nl] else nl :: normalize_lines (seq + 1) rest
    else normalize_lines seq rest

/-- Reference renumbering used to state the amended claim: emit every
kept line with consecutive sequence numbers, with no overflow cut-off. -/
def renumber_from : Nat → List (List Char) → List (List Char)
  | _, [] => []
  | seq, raw :: rest => emit_line seq raw :: renumber_from (seq + 1) rest

end PipelineNormalize

/-!
Embedding of `src/scripts/pipeline/copy_expander.py`. The file system
(`_find_copy_file` over `copybooks_dir` plus `_read_copy_lines`) is
modelled as a finite association list from upper-case copybook names to
their line lists; everything else follows the source. The Python `_stack`
set is passed as a list used only through membership, and the add/remove
pair bracketing the recursive call makes the mutation equivalent to
passing the extended set downward. Recursion is fuel-indexed (every
recursive call consumes one unit); `none` means the fuel ran out, and the
adequacy theorems below show sufficient fuel always exists.
-/

namespace PipelineCopyExpander

open Py

/-- Copybook library: resolved contents of `copybooks_dir`, keyed by the
upper-cased copybook name (the name/extension candidates of
`_find_copy_file` all resolve to the same body). -/
abbrev Lib : Type := List (List Char × List (List Char))

/-- Lookup in the modelled library, `_find_copy_file` plus `_read_copy_lines`. -/
def find_copy_file (lib : Lib) (name : List Char) : Option (List (List Char)) :=
  match lib with
  | [] => none
  | (k, body) :: rest => if k = name then some body else find_copy_file rest name

/-- Name characters of `RE_COPY`: the class `[A-Z0-9-]` under IGNORECASE. -/
def copyNameChar (c : Char) : Bool := isAlpha c || isDigit c || c = '-'

/-- Embedding of `RE_COPY.match(raw.strip())` followed by `.group(1).upper()`:
the pattern is `^\s*COPY\s+([A-Z0-9-]+)\s*\.\s*$` (IGNORECASE). Returns the
upper-cased copybook name when the whole stripped line is a COPY statement. -/
def parse_copy_line (raw : List Char) : Option (List Char) :=
  let s := stripL raw
  if upperL (s.take 4) = S "COPY" then
    let r := s.drop 4
    match r.takeWhile (fun c => isSpace c) with
    | [] => none
    | _ :: _ =>
      let r2 := r.dropWhile (fun c => isSpace c)
      match r2.takeWhile (fun c => copyNameChar c) with
      | [] => none
      | name =>
        let r3 := (r2.dropWhile (fun c => copyNameChar c)).dropWhile (fun c => isSpace c)
        match r3 with
        | '.' :: r4 => if r4.dropWhile (fun c => isSpace c) = [] then some (upperL name) else none
        | _ => none
  else none

/-- Sentinel line `      *COPYBOOK <NAME>` inserted before an inclusion. -/
def sentinel_start (copyname : List Char) : List Char :=
  S "      *COPYBOOK " ++ copyname ++ [ '\n' ]

/-- Sentinel line `      *END COPYBOOK <NAME>` inserted after an inclusion. -/
def sentinel_end (copyname : List Char) : List Char :=
  S "      *END COPYBOOK " ++ copyname ++ [ '\n' ]

/-- Python `raw if raw.endswith("\n") else raw + "\n"`. -/
def ensure_nl (raw : List Char) : List Char :=
  if endsWith (S "\n") raw then raw else raw ++ [ '\n' ]

/-- Fuel-indexed embedding of `expand_copybooks(lines, copybooks_dir)`:
scan the lines; a line that is not a whole COPY statement, or whose name is
already on the anti-cycle stack, or whose copybook cannot be resolved, is
emitted literally (with a newline ensured); otherwise the copybook body is
expanded recursively between sentinel lines with the name pushed on the
stack. `none` signals exhausted fuel only. -/
def expand_fuel : Nat → Lib → List (List Char) → List (List Char) →
    Option (List (List Char))
  | 0, _, _, _ => none
  | _ + 1, _, _, [] => some []
  | f + 1, lib, stack, raw :: rest =>
    match parse_copy_line raw with
    | none => (expand_fuel f lib stack rest).map (fun out => ensure_nl raw :: out)
    | some copyname =>
      if stack.contains copyname then
        (expand_fuel f lib stack rest).map (fun out => ensure_nl raw :: out)
      else
        match find_copy_file lib copyname with
        | none => (expand_fuel f lib stack rest).map (fun out => ensure_nl raw :: out)
        | some body =>
          match expand_fuel f lib (copyname :: stack) body with
          | none => none
          | some inner =>
            match expand_fuel f lib stack rest with
            | none => none
            | some out =>
              some (sentinel_start copyname :: (inner ++ sentinel_end copyname :: out))

/-- Library names not yet on the anti-cycle stack; the quantity that bounds
the recursion depth of `expand_copybooks`. -/
def keys_not_in (lib : Lib) (stack : List (List Char)) : Nat :=
  ((lib.map Prod.fst).filter (fun k => !stack.contains k)).length

end PipelineCopyExpander

/-!
Embedding of the REPLACING machinery of `src/scripts/archive/copy_expander.py`
(`extract_replacing_pairs` and `apply_replacing`). The pseudo-text pair
pattern `==(.*?)==\s+BY\s+==(.*?)==` (IGNORECASE, DOTALL) is reproduced with
its lazy-group backtracking: for the `old` group the closing `==` candidates
are tried nearest-first until the `\s+BY\s+==new==` continuation succeeds;
for the `new` group the continuation is empty, so the nearest closing `==`
always wins. `_normalize_pseudotext` is the identity in the source.
-/

namespace ArchiveCopyExpander

open Py

/-- All decompositions `l = before ++ "==" ++ after`, ordered by increasing
`before` length: the candidate list a lazy `(.*?)` group walks through. -/
def allSplitsOnEq : List Char → List (List Char × List Char)
  | [] => []
  | [_] => []
  | c :: d :: rest =>
    if c = '=' && d = '=' then
      ([], rest) :: (allSplitsOnEq (d :: rest)).map (fun p => (c :: p.1, p.2))
    else
      (allSplitsOnEq (d :: rest)).map (fun p => (c :: p.1, p.2))

/-- Continuation after the `old` group closes: `\s+BY\s+==new==` with the
lazy `new` group; returns the captured `new` and the remaining text. -/
def matchPairCont (after : List Char) : Option (List Char × List Char) :=
  match after.takeWhile (fun c => isSpace c) with
  | [] => none
  | _ :: _ =>
    let r := after.dropWhile (fun c => isSpace c)
    if upperL (r.take 2) = S "BY" then
      let r2 := r.drop 2
      match r2.takeWhile (fun c => isSpace c) with
      | [] => none
      | _ :: _ =>
        let r3 := r2.dropWhile (fun c => isSpace c)
        if startsWith (S "==") r3 then
          match allSplitsOnEq (r3.drop 2) with
          | [] => none
          | (new, rest) :: _ => some (new, rest)
        else none
    else none

/-- Match of the full pseudo-text pair pattern anchored at the head of `l`:
yields `((old, new), rest)` for the leftmost-lazy match, or `none`. -/
def matchPairAt (l : List Char) : Option ((List Char × List Char) × List Char) :=
  if startsWith (S "==") l then
    firstContMatch (allSplitsOnEq (l.drop 2))
  else none
where
  firstContMatch : List (List Char × List Char) → Option ((List Char × List Char) × List Char)
    | [] => none
    | (old, after) :: more =>
      match matchPairCont after with
      | some (new, rest) => some ((old, new), rest)
      | none => firstContMatch more

/-- Embedding of `_PSEUDOTEXT_PAIR_RE.search`: leftmost match in `tail`. -/
def searchPair : List Char → Option ((List Char × List Char) × List Char)
  | [] => none
  | c :: cs =>
    match matchPairAt (c :: cs) with
    | some r => some r
    | none => searchPair cs

/-- Loop of `extract_replacing_pairs`, fuel-indexed: each found pair moves
the search position past its match end (which consumes at least one
character), so `tail.length + 1` units of fuel always suffice. -/
def extractPairsGo : Nat → List Char → List (List Char × List Char)
  | 0, _ => []
  | f + 1, tail =>
    match searchPair tail with
    | none => []
    | some ((old, new), rest) => (old, new) :: extractPairsGo f rest

/-- First index of substring `p` in `l`, Python `l.find(p)` as an option. -/
def findSub (p : List Char) : List Char → Option Nat
  | [] => if startsWith p [] then some 0 else none
  | c :: cs =>
    if startsWith p (c :: cs) then some 0
    else (findSub p cs).map (fun i => i + 1)

/-- Embedding of `extract_replacing_pairs(copy_statement)`: find `REPLACING`
in the upper-cased statement, then collect all `==old== BY ==new==` pairs
from the tail (original case, as in the source). -/
def extract_replacing_pairs (copy_statement : List Char) : List (List Char × List Char) :=
  match findSub (S "REPLACING") (upperL copy_statement) with
  | none => []
  | some idx =>
    let tail := copy_statement.drop (idx + 9)
    extractPairsGo (tail.length + 1) tail

/-- Character class `[A-Z0-9-]` of the DEPENDING-ON fallback pattern
(no IGNORECASE on this one). -/
def dependingChar (c : Char) : Bool :=
  ('A' ≤ c && c ≤ 'Z') || isDigit c || c = '-'

/-- Match of `:DEPENDING ON [A-Z0-9-]+:` anchored at the head of `l`,
returning the remaining text after the match. -/
def matchDependingAt (l : List Char) : Option (List Char) :=
  if startsWith (S ":DEPENDING ON ") l then
    let r := l.drop 14
    match r.takeWhile (fun c => dependingChar c) with
    | [] => none
    | run =>
      match r.drop run.length with
      | ':' :: rest => some rest
      | _ => none
  else none

/-- Embedding of `re.sub(r":DEPENDING ON [A-Z0-9-]+:", " ", text)`,
fuel-indexed (each replacement consumes at least one character). -/
def subDependingGo : Nat → List Char → List Char
  | 0, l => l
  | _ + 1, [] => []
  | f + 1, c :: cs =>
    match matchDependingAt (c :: cs) with
    | some rest => ' ' :: subDependingGo f rest
    | none => c :: subDependingGo f cs

/-- Embedding of `apply_replacing(text, pairs)`: ordered literal
substitutions (empty `old` skipped), then the DEPENDING-ON fallback. -/
def apply_replacing (text : List Char) (pairs : List (List Char × List Char)) : List Char :=
  let t := pairs.foldl
    (fun acc p => if p.1 = [] then acc else replaceAll p.1 p.2 acc) text
  subDependingGo (t.length + 1) t

end ArchiveCopyExpander

/-!
Embedding of `src/build_data_dictionary.py` (the same parsing helpers, with
an identical `build_hierarchy`, also live in `src/expand_copybooks.py`).
The clause extractors for PIC / USAGE / OCCURS / REDEFINES / VALUE only
fill string fields that no claim mentions, so those fields are omitted
from the `Entry` record; level, name, program, section, source and
line number are embedded in full. The exclusion-rule filtering
(`load_ignore_rules` / `should_ignore_entry`) runs with an empty rule list
here, i.e. it filters nothing, matching a run without `--ignore` and
without a `params/ignore_variables.csv` file. CSV output is out of scope.
-/

namespace BuildDataDictionary

open Py

/-- Word character of the regex `\b` boundary, Python `\w` for ASCII. -/
def wordChar (c : Char) : Bool := isAlnum c || c = '_'

/-- Name characters of the capture groups `[A-Z0-9-]` under IGNORECASE. -/
def nameChar (c : Char) : Bool := isAlpha c || isDigit c || c = '-'

/-- Embedding of `extract_code_part(line)`: everything from column 7 on
(`line[6:]`, trailing newline stripped), empty for short lines. -/
def extract_code_part (line : List Char) : List Char :=
  if line.length ≤ 6 then [] else rstripCharsL [ '\n' ] (line.drop 6)

/-- Attempted match of `PROGRAM-ID\.?\s+([A-Z0-9-]+)` anchored at the head
of `l` (the `\b` to the left is checked by the caller). -/
def programIdAt (l : List Char) : Option (List Char) :=
  if startsWithCI (S "PROGRAM-ID") l then
    let r := l.drop 10
    let r := match r with
      | '.' :: t => t
      | _ => r
    match r.takeWhile (fun c => isSpace c) with
    | [] => none
    | _ :: _ =>
      let r2 := r.dropWhile (fun c => isSpace c)
      match r2.takeWhile (fun c => nameChar c) with
      | [] => none
      | name => some (upperL name)
  else none

/-- Embedding of `PROGRAM_ID_RE.search(code)` followed by `.group(1).upper()`:
scan all positions, requiring a non-word character (or the line start)
before the literal. -/
def searchProgramId : Bool → List Char → Option (List Char)
  | _, [] => none
  | boundary, c :: cs =>
    match (if boundary then programIdAt (c :: cs) else none) with
    | some n => some n
    | none => searchProgramId (!wordChar c) cs

/-- Embedding of `detect_program_id(code, current_program)`. -/
def detect_program_id (code : List Char) (current_program : Option (List Char)) :
    Option (List Char) :=
  match searchProgramId true code with
  | some n => some n
  | none => current_program

/-- Attempted match of one alternative of `SECTION_RE` at the head of `l`:
the keyword, then `\s+SECTION` (the trailing `\.?` constrains nothing). -/
def sectionAltAt (kw : List Char) (l : List Char) : Bool :=
  if startsWithCI kw l then
    let r := l.drop kw.length
    match r.takeWhile (fun c => isSpace c) with
    | [] => false
    | _ :: _ => startsWithCI (S "SECTION") (r.dropWhile (fun c => isSpace c))
  else false

/-- The `SECTION_RE` alternation, in source order. -/
def sectionKeywords : List (List Char) :=
  [S "WORKING-STORAGE", S "LINKAGE", S "FILE", S "LOCAL-STORAGE"]

/-- One position of the `SECTION_RE` search: first alternative that matches. -/
def sectionAt (l : List Char) : Option (List Char) :=
  match sectionKeywords.filter (fun kw => sectionAltAt kw l) with
  | [] => none
  | kw :: _ => some kw

/-- Embedding of `SECTION_RE.search(code)` with the `\b` left boundary. -/
def searchSection : Bool → List Char → Option (List Char)
  | _, [] => none
  | boundary, c :: cs =>
    match (if boundary then sectionAt (c :: cs) else none) with
    | some kw => some kw
    | none => searchSection (!wordChar c) cs

/-- Embedding of `detect_section(code, current_section)`: on a match the
section becomes the upper-cased keyword plus " SECTION". -/
def detect_section (code : List Char) (current_section : Option (List Char)) :
    Option (List Char) :=
  match searchSection true code with
  | some kw => some (kw ++ S " SECTION")
  | none => current_section

/-- Embedding of `detect_copy_source(code, current_source)` from
`src/build_data_dictionary.py`: any line containing `END COPYBOOK` resets
the source to MAIN; a line starting with the six characters `*COPY` and a
space sets it to the named copybook; the sentinel `*COPYBOOK <name>` lines
emitted by the expanders match neither test. -/
def detect_copy_source (code : List Char) (current_source : List Char) : List Char :=
  let stripped := stripL code
  let upper := upperL stripped
  if containsSub (S "END COPYBOOK") upper then S "MAIN"
  else if startsWith (S "*COPY ") upper then
    let name := stripL (upper.drop 6)
    if name ≠ [] then name else current_source
  else current_source

/-- Allowed level tokens of `LEVEL_RE`: `0[1-9] | [1-4][0-9] | 66 | 77 | 88`. -/
def levelDigitsOk (d1 d2 : Char) : Bool :=
  (d1 = '0' && '1' ≤ d2 && d2 ≤ '9') ||
  ('1' ≤ d1 && d1 ≤ '4' && isDigit d2) ||
  (d1 = '6' && d2 = '6') || (d1 = '7' && d2 = '7') || (d1 = '8' && d2 = '8')

/-- Embedding of `LEVEL_RE.match(code)` returning the level string and the
upper-cased name: `^\s*(level)\b\s+([A-Z0-9-]+)` (IGNORECASE). After the
two level digits the `\b\s+` part forces a whitespace character. -/
def parse_level_name (code : List Char) : Option (List Char × List Char) :=
  let r := code.dropWhile (fun c => isSpace c)
  match r with
  | d1 :: d2 :: rest =>
    if levelDigitsOk d1 d2 then
      match rest with
      | c :: _ =>
        if isSpace c then
          let r2 := rest.dropWhile (fun c => isSpace c)
          match r2.takeWhile (fun c => nameChar c) with
          | [] => none
          | name => some ([d1, d2], upperL name)
        else none
      | [] => none
    else none
  | _ => none

/-- Dictionary entry as written to the output record. The PIC / USAGE /
OCCURS / REDEFINES / VALUE clause strings are omitted (see the section
comment); `sectionName` stands for the Python key `section`, which is a
reserved word in Lean. -/
structure Entry where
  program : List Char
  sectionName : List Char
  source : List Char
  level : List Char
  name : List Char
  parent_name : List Char
  full_path : List Char
  line_etude : List Char
  deriving DecidableEq, Repr

/-- Python `int(lvl_str)` guarded by `except ValueError: lvl = 0`, for the
digit strings produced by `LEVEL_RE` (and 0 for anything non-numeric). -/
def level_nat (lvl : List Char) : Nat :=
  if lvl ≠ [] && lvl.all (fun c => isDigit c) then
    lvl.foldl (fun acc c => acc * 10 + (c.toNat - '0'.toNat)) 0
  else 0

/-- Stack pop loop of `build_hierarchy`: pop while the top level is ≥ the
new level. The stack is kept top-first. -/
def pop_stack (lvl : Nat) : List (Nat × List Char × List Char) →
    List (Nat × List Char × List Char)
  | [] => []
  | (l, n, p) :: rest => if lvl ≤ l then pop_stack lvl rest else (l, n, p) :: rest

/-- Main loop of `build_hierarchy(entries)`: assign `parent_name` and
`full_path` from the level stack; level 88 attaches to the last non-88
item without entering the stack; levels 66 and 77 clear the stack. -/
def build_hierarchy_go :
    List (Nat × List Char × List Char) → Option (Nat × List Char × List Char) →
    List Entry → List Entry
  | _, _, [] => []
  | stack, last_non_88, e :: rest =>
    let lvl := level_nat e.level
    if lvl = 88 then
      let pn_fp : List Char × List Char :=
        match last_non_88 with
        | some (_, n, p) => (n, p ++ S "/" ++ e.name)
        | none => ([], e.name)
      { e with parent_name := pn_fp.1, full_path := pn_fp.2 } ::
        build_hierarchy_go stack last_non_88 rest
    else if lvl = 66 || lvl = 77 then
      { e with parent_name := [], full_path := e.name } ::
        build_hierarchy_go [] (some (lvl, e.name, e.name)) rest
    else
      let stack2 := pop_stack lvl stack
      let pn_fp : List Char × List Char :=
        match stack2 with
        | (_, pn, pp) :: _ => (pn, pp ++ S "/" ++ e.name)
        | [] => ([], e.name)
      { e with parent_name := pn_fp.1, full_path := pn_fp.2 } ::
        build_hierarchy_go ((lvl, e.name, pn_fp.2) :: stack2)
          (some (lvl, e.name, pn_fp.2)) rest

/-- Embedding of `build_hierarchy(entries)` (in-place in Python, returned
as a new list here). -/
def build_hierarchy (entries : List Entry) : List Entry :=
  build_hierarchy_go [] none entries

/-- Declaration-scanning loop of `build_data_dictionary`: maintain the
program / section / source context, skip blank and comment code, and
collect one entry per declaration line. -/
def scan_entries :
    Option (List Char) → Option (List Char) → List Char →
    List (List Char) → List Entry
  | _, _, _, [] => []
  | current_program, current_section, current_source, line :: rest =>
    let code := extract_code_part line
    if stripL code = [] then
      scan_entries current_program current_section current_source rest
    else
      let prog := detect_program_id code current_program
      let sect := detect_section code current_section
      let src := detect_copy_source code current_source
      if startsWith (S "*") (lstripL code) then scan_entries prog sect src rest
      else
        match parse_level_name code with
        | none => scan_entries prog sect src rest
        | some (lvl, name) =>
          { program := prog.getD [], sectionName := sect.getD [],
            source := src, level := lvl, name := name,
            parent_name := [], full_path := [],
            line_etude := stripL (line.take 6) } ::
            scan_entries prog sect src rest

/-- Embedding of `build_data_dictionary` on an in-memory line list (file
I/O and CSV writing stripped; empty exclusion-rule list): scan the
declarations, then run the hierarchy pass. -/
def build_data_dictionary (lines : List (List Char)) : List Entry :=
  build_hierarchy (scan_entries none none (S "MAIN") lines)

end BuildDataDictionary

/-!
Embedding of `is_paragraph_line` from `src/scripts/analysis/program_structure.py`
(the unified paragraph-header rule; `src/scripts/analysis/analysis_core.py`
carries the identical function as `_is_paragraph_line`).
-/

namespace ProgramStructure

open Py

/-- Embedding of `is_paragraph_line(line)`: at least 8 columns, no comment
asterisk in column 7, non-blank column 8, exactly one token in the
right-trimmed code zone, the token period-terminated, and the name (token
without the final period) 1-30 characters of letters, digits and dashes
starting with a letter or digit. -/
def is_paragraph_line (line : List Char) : Bool :=
  if line.length < 8 then false
  else if line.getD 6 ' ' = '*' then false
  else if line.getD 7 ' ' = ' ' then false
  else
    let code := rstripL (sliceL line 7 72)
    if code = [] then false
    else
      match splitWS code with
      | [token] =>
        if !endsWith (S ".") token then false
        else
          let name := token.take (token.length - 1)
          if !(1 ≤ name.length && name.length ≤ 30) then false
          else
            let upper := upperL name
            if !isAlnum (upper.getD 0 ' ') then false
            else upper.all (fun ch => isAlnum ch || ch = '-')
      | _ => false

end ProgramStructure

/-!
Embedding of the call scan of `src/analysis_core.py` (identical in
`src/scripts/analysis/analysis_core.py` up to a loop-variable rename):
paragraph records, `_normalize_target_name` and the `Caller`-producing part
of `_scan_calls_and_exits`. The exit-event detection in the same loop
writes only to the separate `exits_by_paragraph` dictionary and the
statistics counters, neither of which any claim mentions, so it is not
reproduced. Python upper-cases the whole code zone before tokenizing;
since ASCII uppercasing is per-character and leaves `.` and spaces fixed,
`upper_tokens` equals the original token list mapped through `upper`.
-/

namespace AnalysisCore

open Py

/-- Paragraph record of `analysis_core.py`. -/
structure Paragraph where
  order : Nat
  seq : List Char
  name : List Char
  start_index : Nat
  deriving DecidableEq, Repr

/-- Caller record (one internal call edge, keyed by its target). -/
structure Caller where
  src_paragraph : List Char
  seq : List Char
  kind : List Char
  line_text : List Char
  deriving DecidableEq, Repr

/-- Embedding of `_normalize_target_name(raw, para_names)`: strip trailing
periods, match against the paragraph-name set, retry without a trailing
`-F`; empty result means no match. -/
def normalize_target_name (raw : List Char) (para_names : List (List Char)) : List Char :=
  let base := rstripCharsL [ '.' ] raw
  if para_names.contains base then base
  else if endsWith (S "-F") base then
    let cand := base.take (base.length - 2)
    if para_names.contains cand then cand else []
  else []

/-- GO TO detection on one tokenized line: the token after the first `TO`
is the raw target; a missing token (IndexError) or an unresolved target
produces no edge. -/
def goto_edges (para_names : List (List Char)) (pname seq code : List Char)
    (tokens upper_tokens : List (List Char)) : List (List Char × Caller) :=
  if upper_tokens.contains (S "GO") && upper_tokens.contains (S "TO") then
    match upper_tokens.indexOf? (S "TO") with
    | none => []
    | some idx_to =>
      match tokens.get? (idx_to + 1) with
      | none => []
      | some raw_target =>
        let target := normalize_target_name raw_target para_names
        if target ≠ [] then
          [(target, ⟨pname, seq, S "GO TO", code⟩)]
        else []
  else []

/-- PERFORM / PERFORM THRU detection on one tokenized line. A missing
token after `PERFORM` raises IndexError in the source and aborts the whole
block, including the THRU part; a missing token after `THRU` is caught by
the inner `try` and only the THRU edge is lost. Targets with the SMAD-
trace name marker are excluded. -/
def perform_edges (para_names : List (List Char)) (pname seq code : List Char)
    (tokens upper_tokens : List (List Char)) : List (List Char × Caller) :=
  if upper_tokens.contains (S "PERFORM") then
    match upper_tokens.indexOf? (S "PERFORM") with
    | none => []
    | some idx_p =>
      match tokens.get? (idx_p + 1) with
      | none => []
      | some raw_target =>
        let target := normalize_target_name raw_target para_names
        let perform_part :=
          if target ≠ [] && !startsWith (S "SMAD-") (upperL target) then
            [(target, (⟨pname, seq, S "PERFORM", code⟩ : Caller))]
          else []
        let thru_part :=
          if upper_tokens.contains (S "THRU") then
            match upper_tokens.indexOf? (S "THRU") with
            | none => []
            | some idx_t =>
              match tokens.get? (idx_t + 1) with
              | none => []
              | some raw_target2 =>
                let target2 := normalize_target_name raw_target2 para_names
                if target2 ≠ [] && !startsWith (S "SMAD-") (upperL target2) then
                  [(target2, (⟨pname, seq, S "PERFORM THRU", code⟩ : Caller))]
                else []
          else []
        perform_part ++ thru_part
  else []

/-- Call edges contributed by a single line of a paragraph span. -/
def line_callers (para_names : List (List Char)) (pname : List Char)
    (line : List Char) : List (List Char × Caller) :=
  let seq := line.take 6
  let code := rstripL (sliceL line 7 72)
  if code = [] then []
  else
    let tokens := splitWS (replaceDotSpace code)
    let upper_tokens := splitWS (replaceDotSpace (upperL code))
    goto_edges para_names pname seq code tokens upper_tokens ++
      perform_edges para_names pname seq code tokens upper_tokens

/-- Line spans of the paragraphs: from the line after the header up to the
next header (or the end of the file), as index ranges. -/
def para_spans : List Paragraph → Nat → List (Paragraph × Nat × Nat)
  | [], _ => []
  | [p], total => [(p, p.start_index + 1, total)]
  | p :: q :: rest, total =>
    (p, p.start_index + 1, q.start_index) :: para_spans (q :: rest) total

/-- Embedding of the `Caller`-producing part of `_scan_calls_and_exits`:
every edge is a `(target, caller)` pair appended to
`callers_by_target[target]`. -/
def scan_calls (lines : List (List Char)) (paragraphs : List Paragraph) :
    List (List Char × Caller) :=
  let para_names := paragraphs.map (fun p => p.name)
  (para_spans paragraphs lines.length).flatMap
    (fun pse =>
      ((lines.drop pse.2.1).take (pse.2.2 - pse.2.1)).flatMap
        (line_callers para_names pse.1.name))

end AnalysisCore

/-!
Embedding of `compute_longest_paths` from `src/report_markdown.py` (the
same function is copied in `src/scripts/report/generate_global_synthesis.py`).
The call graph maps each paragraph to its successor set; Python sets are
modelled as lists used through membership and `sorted`. The nested `dfs`
closure mutates `(max_len, examples)`; here that state is threaded through
a fuel-indexed recursion over a worklist (the pending siblings at the
current stack), `none` meaning exhausted fuel only. `dfs_depth` computes
the quantity named by the original claim: the maximum number of nodes on
the current path over every state the traversal reaches.
-/

namespace ReportMarkdown

open Py

/-- Call graph: association list from a node to its successor set. -/
abbrev Graph : Type := List (List Char × List (List Char))

/-- Lexicographic string order used by Python `sorted` on code points. -/
def lexLe : List Char → List Char → Bool
  | [], _ => true
  | _ :: _, [] => false
  | a :: as_, b :: bs => if a = b then lexLe as_ bs else decide (a < b)

/-- Insertion of one string into a sorted list. -/
def insertSorted (x : List Char) : List (List Char) → List (List Char)
  | [] => [x]
  | y :: ys => if lexLe x y then x :: y :: ys else y :: insertSorted x ys

/-- Python `sorted` on a list of strings (insertion sort). -/
def sortStrings (l : List (List Char)) : List (List Char) :=
  l.foldr insertSorted []

/-- Python `call_graph.get(current, [])` over the association list. -/
def graph_lookup (g : Graph) (n : List Char) : List (List Char) :=
  match g with
  | [] => []
  | (k, vs) :: rest => if k = n then vs else graph_lookup rest n

/-- Sorted successor list, `sorted(call_graph.get(current, []))`. -/
def succs (g : Graph) (n : List Char) : List (List Char) :=
  sortStrings (graph_lookup g n)

/-- Traversal state: `(max_len, examples)`. -/
abbrev DfsSt : Type := Nat × List (List (List Char))

/-- End-of-chain recording at a dead end: a strictly longer chain replaces
the examples, an equally long non-empty chain is appended while fewer than
5 examples are kept. -/
def record_leaf (st : DfsSt) (stack : List (List Char)) : DfsSt :=
  let l := stack.length
  if st.1 < l then (l, [stack])
  else if l = st.1 && decide (0 < l) && decide (st.2.length < 5) then
    (st.1, st.2 ++ [stack])
  else st

/-- Fuel-indexed embedding of the `dfs` closure of `compute_longest_paths`,
generalized to a worklist: process each pending node against the current
stack; a node already on the stack halts that descent; a node without
successors records the completed chain; otherwise descend into the sorted
successors with the node pushed, then continue with the remaining
siblings. `none` signals exhausted fuel only. -/
def dfs_list : Nat → Graph → List (List Char) → List (List Char) → DfsSt →
    Option DfsSt
  | 0, _, _, _, _ => none
  | _ + 1, _, [], _, st => some st
  | f + 1, g, current :: ss, stack, st =>
    if stack.contains current then dfs_list f g ss stack st
    else
      let stack2 := stack ++ [current]
      let succ := succs g current
      match (if succ.isEmpty then some (record_leaf st stack2)
             else dfs_list f g succ stack2 st) with
      | none => none
      | some st2 => dfs_list f g ss stack st2

/-- Embedding of `compute_longest_paths(entry_points, call_graph)` at a
given fuel: run the traversal from each entry point in turn, starting from
`(0, [])`. -/
def compute_longest_paths_fuel (f : Nat) (entry_points : List (List Char))
    (g : Graph) : Option DfsSt :=
  dfs_list f g entry_points [] (0, [])

/-- Maximum number of nodes on the current path over all states reached by
the same traversal: the quantity the original claim equates with the
computed result. -/
def dfs_depth : Nat → Graph → List (List Char) → List (List Char) → Nat →
    Option Nat
  | 0, _, _, _, _ => none
  | _ + 1, _, [], _, d => some d
  | f + 1, g, current :: ss, stack, d =>
    if stack.contains current then dfs_depth f g ss stack d
    else
      let stack2 := stack ++ [current]
      let d2 := max d stack2.length
      let succ := succs g current
      match (if succ.isEmpty then some d2 else dfs_depth f g succ stack2 d2) with
      | none => none
      | some d3 => dfs_depth f g ss stack d3

/-- Chain predicate: consecutive nodes are linked by call-graph edges. -/
def is_chain (g : Graph) : List (List Char) → Bool
  | [] => true
  | [_] => true
  | a :: b :: t => (succs g a).contains b && is_chain g (b :: t)

/-- Duplicate-free test on a node list. -/
def nodupB : List (List Char) → Bool
  | [] => true
  | x :: xs => !xs.contains x && nodupB xs

/-- Completed call chain: starts at an entry point, follows edges, repeats
no node, and ends at a node with no successors. These are exactly the
chains whose length the traversal records at a dead end. -/
def dead_end_chain (entry_points : List (List Char)) (g : Graph)
    (p : List (List Char)) : Bool :=
  match p with
  | [] => false
  | e :: t =>
    entry_points.contains e && is_chain g (e :: t) && nodupB (e :: t) &&
      (succs g ((e :: t).getLast (by simp))).isEmpty

end ReportMarkdown

/-!
Embedding of `scan_procedure_usage` from `src/scan_variable_usage.py` (the
per-line counting phase; the later parent-propagation phase only writes
the separate `used` flag, which the usage-count claim does not mention, and
is therefore not reproduced). The compiled per-name pattern
`(?<![A-Z0-9-])NAME(?![A-Z0-9-])` with IGNORECASE is embedded by its
semantics: the name occurs somewhere in the line with no letter, digit or
dash adjacent on either side, compared case-insensitively. Python iterates
over the deduplicated pattern table and updates the entries grouped by
name; per line this increments each entry with a non-empty matching name
exactly once, which is the per-entry map below.
-/

namespace ScanVariableUsage

open Py

/-- Dictionary row as used by the usage scan: the name drives the
matching; the usage fields are updated in place in the source. -/
structure URow where
  name : List Char
  full_path : List Char
  used_direct : Bool
  usage_count : Nat
  first_usage_line : List Char
  deriving DecidableEq, Repr

/-- Identifier characters of the boundary lookarounds: `[A-Z0-9-]` under
IGNORECASE. -/
def identChar (c : Char) : Bool := isAlpha c || isDigit c || c = '-'

/-- Boundary-safe match of `name` anchored at the head of `code`: the name
matches case-insensitively and the following character, if any, is not an
identifier character. -/
def matchNameAt (name code : List Char) : Bool :=
  startsWithCI name code &&
    (match code.drop name.length with
     | [] => true
     | c :: _ => !identChar c)

/-- Worker for `occursDelim`: `boundary` records whether the previous
character allows a match to start here (the negative lookbehind). -/
def occursDelimGo (name : List Char) : Bool → List Char → Bool
  | _, [] => false
  | boundary, c :: cs =>
    (boundary && matchNameAt name (c :: cs)) || occursDelimGo name (!identChar c) cs

/-- Semantics of `pattern.search(code)` for the compiled per-name pattern:
some position of `code` carries a boundary-delimited, case-insensitive
occurrence of `name`. -/
def occursDelim (name code : List Char) : Bool := occursDelimGo name true code

/-- Embedding of `extract_code_part(line)` from `scan_variable_usage.py`
(same logic as in the dictionary builder). -/
def extract_code_part (line : List Char) : List Char :=
  if line.length ≤ 6 then [] else rstripCharsL [ '\n' ] (line.drop 6)

/-- Initialization of the usage fields before the scan. -/
def init_usage (rows : List URow) : List URow :=
  rows.map (fun e =>
    { e with used_direct := false, usage_count := 0, first_usage_line := [] })

/-- Update of one row for one processed line: increment the count when the
row name (upper-cased, stripped, non-empty) occurs boundary-delimited in
the code; on the first counted line set `used_direct` and record the line
number (kept empty when the sequence columns are blank). -/
def touch_row (line_num code : List Char) (e : URow) : URow :=
  let name := upperL (stripL e.name)
  if name ≠ [] && occursDelim name code then
    { e with
      usage_count := e.usage_count + 1,
      first_usage_line :=
        if e.used_direct then e.first_usage_line
        else if line_num ≠ [] then line_num else e.first_usage_line,
      used_direct := true }
  else e

/-- Main loop of `scan_procedure_usage`: track the PROCEDURE DIVISION
flag, skip blank and comment code, and update every row on each processed
line. -/
def scan_usage_go : Bool → List URow → List (List Char) → List URow
  | _, rows, [] => rows
  | in_procedure, rows, raw :: rest =>
    let code := extract_code_part raw
    if stripL code = [] then scan_usage_go in_procedure rows rest
    else
      let uc := upperL code
      let in2 := in_procedure || containsSub (S "PROCEDURE DIVISION") uc
      if !in2 then scan_usage_go in2 rows rest
      else if startsWith (S "*") (lstripL code) then scan_usage_go in2 rows rest
      else
        let line_num := stripL (raw.take 6)
        scan_usage_go in2 (rows.map (touch_row line_num code)) rest

/-- Embedding of the counting phase of `scan_procedure_usage(etude, entries)`. -/
def scan_procedure_usage (lines : List (List Char)) (rows : List URow) : List URow :=
  scan_usage_go false (init_usage rows) lines

/-- Processed lines of the scan, as `(line_num, code)` pairs: the lines on
which the per-name patterns are actually tested, in order. -/
def processed_lines : Bool → List (List Char) → List (List Char × List Char)
  | _, [] => []
  | in_procedure, raw :: rest =>
    let code := extract_code_part raw
    if stripL code = [] then processed_lines in_procedure rest
    else
      let uc := upperL code
      let in2 := in_procedure || containsSub (S "PROCEDURE DIVISION") uc
      if !in2 then processed_lines in2 rest
      else if startsWith (S "*") (lstripL code) then processed_lines in2 rest
      else (stripL (raw.take 6), code) :: processed_lines in2 rest

end ScanVariableUsage

/-!
Claim-side predicate for the paragraph-header rule, written from the
claim's wording with the reserved-verb / END-xxx exclusion removed (the
amended form): indicator column not a comment marker, first code-zone
column non-blank, exactly one token in the trimmed code zone, token
period-terminated, and a 1-30 character name of letters, digits and
dashes starting with a letter or digit (checked, like the source, on the
upper-cased name).
-/

namespace ProgramStructure

open Py

/-- Amended paragraph-header predicate, stated from the claim text. -/
def paragraph_header_claim (line : List Char) : Bool :=
  line.getD 6 ' ' ≠ '*' && line.getD 7 ' ' ≠ ' ' &&
  (match splitWS (stripL (sliceL line 7 72)) with
   | [tok] =>
     endsWith (S ".") tok &&
     (let name := tok.take (tok.length - 1)
      let upper := upperL name
      decide (1 ≤ name.length) && decide (name.length ≤ 30) &&
      isAlnum (upper.getD 0 ' ') &&
      upper.all (fun ch => isAlnum ch || ch = '-'))
   | _ => false)

end ProgramStructure

namespace ReportMarkdown

/-- Nodes of the call graph not yet on the current path: the decreasing
measure showing the cycle-halting traversal always has enough fuel. -/
def keys_not_on (g : Graph) (stack : List (List Char)) : Nat :=
  ((g.map Prod.fst).filter (fun k => !stack.contains k)).length

/-- Invariant of the traversal state: at most five example chains are kept
and every kept chain has exactly the recorded maximal length. -/
def ExInv (st : DfsSt) : Prop :=
  st.2.length ≤ 5 ∧ ∀ ch ∈ st.2, ch.length = st.1

/-- Invariant tying the traversal stack and pending worklist to the graph:
the stack is duplicate-free, forms a chain, starts at an entry point, and
every pending node extends the stack's last node, or is itself an entry
point when the stack is empty. -/
def StackOK (entries : List (List Char)) (g : Graph)
    (stack ns : List (List Char)) : Prop :=
  nodupB stack = true ∧ is_chain g stack = true ∧
  (∀ e, stack.head? = some e → entries.contains e = true) ∧
  (match stack.getLast? with
   | none => ∀ n ∈ ns, entries.contains n = true
   | some last => ∀ n ∈ ns, (succs g last).contains n = true)

/-- Soundness target: the recorded maximum is zero or is attained by some
completed dead-end chain. -/
def GoodSt (entries : List (List Char)) (g : Graph) (st : DfsSt) : Prop :=
  st.1 = 0 ∨ ∃ p, dead_end_chain entries g p = true ∧ p.length = st.1

end ReportMarkdown

/-!
Theorems. Each claim of the specification is settled below; concrete
inputs are written inline as lists of `Py.S` string literals.
-/

open Py

/-- C1: origin attribution via sentinels. The macro expanders emit the
start sentinel `*COPYBOOK <name>`, but `detect_copy_source` in
`src/build_data_dictionary.py` only reacts to a code zone starting with
the six characters `*COPY` followed by a space, which `*COPYBOOK CB1`
does not match; the end sentinel does reset to MAIN. Consequently a
declaration lying between the emitted sentinel pair keeps origin MAIN
instead of the copybook name: on the expanded sequence below the item
FOO is attributed to MAIN, not CB1, contradicting the claim (and the
function docstring, which says it handles the lines inserted by the
expander). -/
theorem c1_sentinel_origin_code_bug :
    BuildDataDictionary.detect_copy_source (S "*COPYBOOK CB1") (S "MAIN") = S "MAIN" ∧
    (BuildDataDictionary.build_data_dictionary
      [S "000001 PROGRAM-ID. PGM1.",
       S "000002 WORKING-STORAGE SECTION.",
       S "000003*COPYBOOK CB1",
       S "000004 01 FOO PIC X.",
       S "000005*END COPYBOOK CB1"]).map
        (fun e => (e.name, e.source)) = [(S "FOO", S "MAIN")] := by
  decide

/-- C4 counterexample: with copybook text `MOVE ==OLD== TO X.` and the
statement `COPY CB REPLACING ==OLD== BY ==NEW==.`, the extracted pair is
`(OLD, NEW)` (the pseudo-text delimiters are not part of the captured
groups), so the literal substitution rewrites only the text between the
delimiters: the output is `MOVE ==NEW== TO X.` and does not contain the
string `MOVE NEW TO X.` the claim promises. -/
theorem c4_replacing_counterexample :
    ArchiveCopyExpander.apply_replacing (S "MOVE ==OLD== TO X.")
      (ArchiveCopyExpander.extract_replacing_pairs
        (S "COPY CB REPLACING ==OLD== BY ==NEW==.")) = S "MOVE ==NEW== TO X." ∧
    containsSub (S "MOVE NEW TO X.")
      (ArchiveCopyExpander.apply_replacing (S "MOVE ==OLD== TO X.")
        (ArchiveCopyExpander.extract_replacing_pairs
          (S "COPY CB REPLACING ==OLD== BY ==NEW==."))) = false := by
  decide

/-- C4 amended: the same expansion yields output containing
`MOVE ==NEW== TO X.` — the pseudo-text content is substituted while the
`==` delimiters of the copybook text remain in place. -/
theorem c4_replacing_amended :
    containsSub (S "MOVE ==NEW== TO X.")
      (ArchiveCopyExpander.apply_replacing (S "MOVE ==OLD== TO X.")
        (ArchiveCopyExpander.extract_replacing_pairs
          (S "COPY CB REPLACING ==OLD== BY ==NEW==."))) = true := by
  decide

/-- C7 counterexample: the line `000100 END-IF.` (72-column padded, as the
paragraph detector normalizes it) is accepted by `is_paragraph_line`
although its single token names the END-xxx token `END-IF`, which the
claim requires to be excluded; no reserved-verb or END-xxx test exists in
the recognizer (such labels are only filtered later, at entry-point
selection). -/
theorem c7_paragraph_counterexample :
    ProgramStructure.is_paragraph_line (ljustL 72 (S "000100 END-IF.")) = true ∧
    splitWS (rstripL (sliceL (ljustL 72 (S "000100 END-IF.")) 7 72)) = [S "END-IF."] ∧
    startsWith (S "END-") (S "END-IF") = true := by
  decide

/-- C9 counterexample: on the call graph A→B, B→C, C→B with entry point A
(A has no incoming edge, so it is a genuine entry point), the traversal
pushes A, B, C — reaching a current path of three nodes — and then halts
at the revisit of B; no node without successors is ever reached, so the
computed result is `(0, [])` while the maximum depth reached by the
traversal is 3. The computed value therefore does not equal the maximum
depth reached, falsifying the claim as stated. -/
theorem c9_longest_chain_counterexample :
    ReportMarkdown.compute_longest_paths_fuel 50 [S "A"]
      [(S "A", [S "B"]), (S "B", [S "C"]), (S "C", [S "B"])] = some (0, []) ∧
    ReportMarkdown.dfs_depth 50
      [(S "A", [S "B"]), (S "B", [S "C"]), (S "C", [S "B"])] [S "A"] [] 0 = some 3 := by
  decide

/-- C2 counterexample: the raw line `SMASH *COPYBOOK CB1` has the comment
indicator `*` in column 7 and satisfies the sentinel test (columns 7-72
trimmed read `*COPYBOOK CB1`), yet normalization drops it: the SMASH
debug-marker filter runs before the comment/sentinel distinction. The
claim, which ties survival of an indicator-`*` line only to the sentinel
test, is false as stated. -/
theorem c2_sentinel_filter_counterexample :
    (PipelineNormalize.force80 (PipelineNormalize.rstripNl (S "SMASH *COPYBOOK CB1"))).getD 6 ' ' = '*' ∧
    PipelineNormalize.is_copy_sentinel
      (PipelineNormalize.force80 (PipelineNormalize.rstripNl (S "SMASH *COPYBOOK CB1"))) = true ∧
    PipelineNormalize.normalize_lines 1 [S "SMASH *COPYBOOK CB1"] = [] := by
  decide

/-- C5 counterexample: a program whose first data declaration is at level
05 with no enclosing level-01 group. The produced DataItem has level 05
(within 2..49) and an empty parent reference: hierarchy construction
leaves the stack empty and assigns no parent, falsifying the claim that
every item at level 2..49 has a non-empty parent. -/
theorem c5_parent_counterexample :
    (BuildDataDictionary.build_data_dictionary
      [S "000001 PROGRAM-ID. PGM1.",
       S "000002 WORKING-STORAGE SECTION.",
       S "000003 05 A PIC X."]).map
        (fun e => (e.level, e.parent_name, e.full_path)) = [(S "05", [], S "A")] ∧
    BuildDataDictionary.level_nat (S "05") = 5 := by
  decide

/-- C6 counterexample: two identical level-01 declarations of the name A
in the same program and section (as arises when the same copybook is
included twice). The two produced DataItems are distinct — they carry
different declaration line numbers — yet both receive the full_path `A`,
falsifying full_path uniqueness within one program and section. -/
theorem c6_full_path_counterexample :
    (BuildDataDictionary.build_data_dictionary
      [S "000001 PROGRAM-ID. PGM1.",
       S "000002 WORKING-STORAGE SECTION.",
       S "000003 01 A PIC X.",
       S "000004 01 A PIC X."]).map
        (fun e => (e.program, e.sectionName, e.full_path, e.line_etude)) =
      [(S "PGM1", S "WORKING-STORAGE SECTION", S "A", S "000003"),
       (S "PGM1", S "WORKING-STORAGE SECTION", S "A", S "000004")] := by
  decide

namespace Py

/-- Splitting on whitespace ignores leading whitespace. -/
theorem splitWS_lstrip (l : List Char) : splitWS (lstripL l) = splitWS l := by
  induction l with
  | nil => rfl
  | cons c cs ih =>
    by_cases h : isSpace c = true
    · simpa [splitWS, lstripL, splitWSGo, h, List.dropWhile_cons] using ih
    · simp [splitWS, lstripL, splitWSGo, h, List.dropWhile_cons]

/-- Unfolding of `rstripL` on a cons cell. -/
theorem rstripL_cons (c : Char) (cs : List Char) :
    rstripL (c :: cs) =
      if rstripL cs = [] then (if isSpace c then [] else [c])
      else c :: rstripL cs := by
  unfold rstripL lstripL
  simp only [List.reverse_cons, List.dropWhile_append]
  by_cases h : List.dropWhile (fun c => isSpace c) cs.reverse = []
  · rw [if_pos (by simp [h])]
    rw [if_pos (by simp [h])]
    by_cases hc : isSpace c = true <;> simp [List.dropWhile, hc]
  · rw [if_neg (by simp [h])]
    rw [if_neg (by simp [h])]
    simp

/-- The two one-sided trims commute. -/
theorem lstripL_rstripL_comm (l : List Char) :
    lstripL (rstripL l) = rstripL (lstripL l) := by
  induction l with
  | nil => rfl
  | cons c cs ih =>
    rw [rstripL_cons]
    by_cases hnil : rstripL cs = []
    · rw [if_pos hnil]
      by_cases hc : isSpace c = true
      · rw [if_pos hc]
        have h2 : lstripL (c :: cs) = lstripL cs := by
          simp [lstripL, List.dropWhile_cons, hc]
        rw [h2, ← ih, hnil]
      · rw [if_neg hc]
        have h1 : lstripL (c :: cs) = c :: cs := by
          simp [lstripL, List.dropWhile_cons, hc]
        rw [h1, rstripL_cons, hnil]
        simp [hc, lstripL, List.dropWhile_cons]
    · rw [if_neg hnil]
      by_cases hc : isSpace c = true
      · have h1 : lstripL (c :: rstripL cs) = lstripL (rstripL cs) := by
          simp [lstripL, List.dropWhile_cons, hc]
        have h2 : lstripL (c :: cs) = lstripL cs := by
          simp [lstripL, List.dropWhile_cons, hc]
        rw [h1, h2, ih]
      · have h1 : lstripL (c :: rstripL cs) = c :: rstripL cs := by
          simp [lstripL, List.dropWhile_cons, hc]
        have h2 : lstripL (c :: cs) = c :: cs := by
          simp [lstripL, List.dropWhile_cons, hc]
        rw [h1, h2, rstripL_cons]
        rw [if_neg hnil]

/-- Splitting the fully trimmed text equals splitting the right-trim. -/
theorem splitWS_stripL (l : List Char) : splitWS (stripL l) = splitWS (rstripL l) := by
  unfold stripL
  rw [← lstripL_rstripL_comm, splitWS_lstrip]

end Py

/-- C7 amended: the paragraph-header recognizer agrees, on every line,
with the claim predicate minus its reserved-verb / END-xxx condition:
indicator not a comment marker, first code-zone column non-blank, trimmed
code zone exactly one period-terminated token, and a 1-30 character name
of letters, digits and dashes starting with a letter or digit. No
reserved-verb or END-xxx exclusion is applied at recognition time. -/
theorem c7_paragraph_amended (line : List Char) :
    ProgramStructure.is_paragraph_line line = ProgramStructure.paragraph_header_claim line := by
  unfold ProgramStructure.is_paragraph_line ProgramStructure.paragraph_header_claim
  rw [splitWS_stripL]
  by_cases hlen : line.length < 8
  · have h7 : line.getD 7 ' ' = ' ' := List.getD_eq_default _ _ (by omega)
    rw [if_pos hlen]
    rw [List.getD_eq_getElem?_getD] at h7
    simp [h7]
  · rw [if_neg hlen]
    by_cases h6 : line.getD 6 ' ' = '*'
    · rw [if_pos h6]
      rw [List.getD_eq_getElem?_getD] at h6
      simp [h6]
    · rw [if_neg h6]
      rw [List.getD_eq_getElem?_getD] at h6
      by_cases h7 : line.getD 7 ' ' = ' '
      · rw [if_pos h7]
        rw [List.getD_eq_getElem?_getD] at h7
        simp [h7]
      · rw [if_neg h7]
        rw [List.getD_eq_getElem?_getD] at h7
        by_cases hcode : rstripL (sliceL line 7 72) = []
        · rw [if_pos hcode, hcode]
          simp [splitWS, splitWSGo, h6, h7]
        · rw [if_neg hcode]
          rcases hm : splitWS (rstripL (sliceL line 7 72)) with _ | ⟨t, ts⟩
          · simp [h6, h7]
          · rcases ts with _ | ⟨t2, ts2⟩
            · have e1 : decide (1 ≤ t.length - 1) = !decide (t.length - 1 = 0) := by
                by_cases h : t.length - 1 = 0 <;> simp [h] <;> omega
              have e2 : decide (t.length ≤ 31) = !decide (31 < t.length) := by
                by_cases h : 31 < t.length <;> simp [h] <;> omega
              simp [h6, h7, e1, e2, Bool.and_assoc]
            · simp [h6, h7]
namespace AnalysisCore
open Py

theorem contains_mem {l : List (List Char)} {a : List Char} (h : l.contains a = true) : a ∈ l := by
  simpa using h

theorem normalize_target_mem (raw : List Char) (names : List (List Char))
    (h : normalize_target_name raw names ≠ []) :
    normalize_target_name raw names ∈ names := by
  unfold normalize_target_name at h ⊢
  dsimp only at h ⊢
  split_ifs at h ⊢ with h1 h2 h3
  · exact contains_mem h1
  · exact contains_mem h3
  · exact absurd rfl h
  · exact absurd rfl h

theorem goto_edges_target_mem {names : List (List Char)} {pname seq code t : List Char}
    {c : Caller} {tokens upper_tokens : List (List Char)}
    (h : (t, c) ∈ goto_edges names pname seq code tokens upper_tokens) :
    t ∈ names := by
  unfold goto_edges at h
  split at h
  · split at h
    · simp at h
    · split at h
      · simp at h
      · dsimp only at h
        split at h
        · simp at h
          obtain ⟨ht, _⟩ := h
          subst ht
          apply normalize_target_mem
          assumption
        · simp at h
  · simp at h

theorem perform_edges_target_mem {names : List (List Char)} {pname seq code t : List Char}
    {c : Caller} {tokens upper_tokens : List (List Char)}
    (h : (t, c) ∈ perform_edges names pname seq code tokens upper_tokens) :
    t ∈ names := by
  unfold perform_edges at h
  split at h
  · split at h
    · simp at h
    · split at h
      · simp at h
      · dsimp only at h
        rw [List.mem_append] at h
        rcases h with h | h
        · split at h
          · simp at h
            obtain ⟨ht, hne⟩ := h
            subst ht
            apply normalize_target_mem
            rename_i hcond
            simp at hcond
            exact hcond.1
          · simp at h
        · split at h
          · split at h
            · simp at h
            · split at h
              · simp at h
              · split at h
                · simp at h
                  obtain ⟨ht, hne⟩ := h
                  subst ht
                  apply normalize_target_mem
                  rename_i hcond
                  simp at hcond
                  exact hcond.1
                · simp at h
          · simp at h
  · simp at h

end AnalysisCore

/-- C8: every call edge produced by the paragraph scan has a target that
belongs to the paragraph-name set of the scanned program, after the
trailing-period strip and `-F` suffix-removal fallback of
`_normalize_target_name`; a GO TO or PERFORM whose target resolves to no
known paragraph name contributes no edge (the resolver returns the empty
string and the guard drops the edge). -/
theorem c8_call_edge_targets
    (lines : List (List Char)) (paragraphs : List AnalysisCore.Paragraph)
    (t : List Char) (c : AnalysisCore.Caller)
    (hmem : (t, c) ∈ AnalysisCore.scan_calls lines paragraphs) :
    t ∈ paragraphs.map (fun p => p.name) := by
  unfold AnalysisCore.scan_calls at hmem
  dsimp only at hmem
  rw [List.mem_flatMap] at hmem
  obtain ⟨pse, hpse, hline⟩ := hmem
  rw [List.mem_flatMap] at hline
  obtain ⟨l, hl, hlc⟩ := hline
  unfold AnalysisCore.line_callers at hlc
  dsimp only at hlc
  split at hlc
  · simp at hlc
  · rw [List.mem_append] at hlc
    rcases hlc with h | h
    · exact AnalysisCore.goto_edges_target_mem h
    · exact AnalysisCore.perform_edges_target_mem h

/-- C8 witness: on a concrete three-paragraph program, the PERFORM edge
produced for `200-WORK` has its target in the paragraph-name set. -/
theorem c8_call_edge_targets_witness :
    (S "200-WORK") ∈
      ([⟨1, S "000010", S "100-INIT", 1⟩,
        ⟨2, S "000020", S "200-WORK", 4⟩,
        ⟨3, S "000030", S "300-END", 6⟩] : List AnalysisCore.Paragraph).map
        (fun p => p.name) :=
  c8_call_edge_targets
    [S "000001 PROCEDURE DIVISION.",
     S "000010 100-INIT.",
     S "000011     PERFORM 200-WORK THRU 300-END.",
     S "000012     GO TO 999-MISSING.",
     S "000020 200-WORK.",
     S "000021     GO TO 300-END-F.",
     S "000030 300-END.",
     S "000031     PERFORM SMAD-TRACE."]
    [⟨1, S "000010", S "100-INIT", 1⟩,
     ⟨2, S "000020", S "200-WORK", 4⟩,
     ⟨3, S "000030", S "300-END", 6⟩]
    (S "200-WORK")
    ⟨S "100-INIT", S "000011", S "PERFORM", S "    PERFORM 200-WORK THRU 300-END."⟩
    (by decide)
namespace ScanVariableUsage
open Py

theorem touch_row_name (line_num code : List Char) (e : URow) :
    (touch_row line_num code e).name = e.name := by
  unfold touch_row
  dsimp only
  split <;> rfl

theorem scan_go_eq (lines : List (List Char)) :
    ∀ (inp : Bool) (rows : List URow),
      scan_usage_go inp rows lines =
        rows.map (fun e =>
          (processed_lines inp lines).foldl (fun x pc => touch_row pc.1 pc.2 x) e) := by
  induction lines with
  | nil => intro inp rows; simp [scan_usage_go, processed_lines]
  | cons raw rest ih =>
    intro inp rows
    simp only [scan_usage_go, processed_lines]
    by_cases h1 : stripL (extract_code_part raw) = []
    · simp [h1, ih]
    · by_cases h2 : (inp || containsSub (S "PROCEDURE DIVISION") (upperL (extract_code_part raw))) = true
      · by_cases h3 : startsWith (S "*") (lstripL (extract_code_part raw)) = true
        · simp [h1, h2, h3, ih]
        · simp [h1, h2, h3, ih, List.map_map, Function.comp]
      · simp only [Bool.not_eq_true] at h2
        simp [h1, h2, ih]
end ScanVariableUsage
namespace ScanVariableUsage
open Py

theorem touch_fold (procs : List (List Char × List Char)) :
    ∀ (e : URow),
      procs.foldl (fun x pc => touch_row pc.1 pc.2 x) e =
        { e with
          usage_count := e.usage_count +
            (procs.filter (fun pc =>
              upperL (stripL e.name) ≠ [] &&
                occursDelim (upperL (stripL e.name)) pc.2)).length,
          used_direct := e.used_direct ||
            !(procs.filter (fun pc =>
              upperL (stripL e.name) ≠ [] &&
                occursDelim (upperL (stripL e.name)) pc.2)).isEmpty,
          first_usage_line :=
            if e.used_direct then e.first_usage_line
            else
              match (procs.filter (fun pc =>
                upperL (stripL e.name) ≠ [] &&
                  occursDelim (upperL (stripL e.name)) pc.2)).head? with
              | none => e.first_usage_line
              | some pc => if pc.1 ≠ [] then pc.1 else e.first_usage_line } := by
  induction procs with
  | nil => intro e; simp
  | cons pc rest ih =>
    intro e
    rw [List.foldl_cons, ih (touch_row pc.1 pc.2 e)]
    by_cases hm : (upperL (stripL e.name) ≠ [] && occursDelim (upperL (stripL e.name)) pc.2) = true
    · have hname : (touch_row pc.1 pc.2 e).name = e.name := touch_row_name _ _ _
      have htouch : touch_row pc.1 pc.2 e =
          { e with
            usage_count := e.usage_count + 1,
            first_usage_line :=
              if e.used_direct then e.first_usage_line
              else if pc.1 ≠ [] then pc.1 else e.first_usage_line,
            used_direct := true } := by
        unfold touch_row
        dsimp only
        rw [if_pos hm]
      rw [htouch]
      simp only [List.filter_cons]
      rw [if_pos hm]
      cases e with
      | mk nm fp ud uc ful =>
        simp only [URow.mk.injEq]
        refine ⟨trivial, trivial, ?_, ?_, ?_⟩
        · simp
        · simp only [List.length_cons]; omega
        · by_cases hud : ud = true
          · simp [hud]
          · simp only [Bool.not_eq_true] at hud
            simp [hud]
    · have htouch : touch_row pc.1 pc.2 e = e := by
        unfold touch_row
        dsimp only
        rw [if_neg hm]
      rw [htouch]
      simp only [List.filter_cons]
      rw [if_neg hm]

end ScanVariableUsage
namespace ScanVariableUsage

open Py

theorem head_first_eq (o : Option (List Char × List Char)) :
    (match o with
     | none => ([] : List Char)
     | some pc => if pc.1 ≠ [] then pc.1 else []) = (o.map Prod.fst).getD [] := by
  cases o with
  | none => rfl
  | some pc =>
    by_cases hp : pc.1 = []
    · simp [hp]
    · simp [hp]

end ScanVariableUsage

/-- C10: per-line usage counting. Running the procedure-division usage
scan equals, for every dictionary row independently: the usage count is
the number of processed code lines (lines after the PROCEDURE DIVISION
marker, blank and comment code skipped) on which the row's bare name
occurs delimited by non-identifier characters (no adjacent letter, digit
or dash, case-insensitively); several occurrences on one line count once;
the direct-usage flag is set exactly when that count is non-zero; and the
first-usage line number is the sequence field of the first counted line.
Rows sharing one name are all updated alike, whatever their section. -/
theorem c10_per_line_usage_counting (lines : List (List Char))
    (rows : List ScanVariableUsage.URow) :
    ScanVariableUsage.scan_procedure_usage lines rows =
      rows.map (fun e =>
        { e with
          usage_count := ((ScanVariableUsage.processed_lines false lines).filter
            (fun pc => upperL (stripL e.name) ≠ [] &&
              ScanVariableUsage.occursDelim (upperL (stripL e.name)) pc.2)).length,
          used_direct := !((ScanVariableUsage.processed_lines false lines).filter
            (fun pc => upperL (stripL e.name) ≠ [] &&
              ScanVariableUsage.occursDelim (upperL (stripL e.name)) pc.2)).isEmpty,
          first_usage_line := ((((ScanVariableUsage.processed_lines false lines).filter
            (fun pc => upperL (stripL e.name) ≠ [] &&
              ScanVariableUsage.occursDelim (upperL (stripL e.name)) pc.2)).head?).map
                Prod.fst).getD [] }) := by
  unfold ScanVariableUsage.scan_procedure_usage ScanVariableUsage.init_usage
  rw [ScanVariableUsage.scan_go_eq, List.map_map]
  apply List.map_congr_left
  intro e _
  simp only [Function.comp]
  rw [ScanVariableUsage.touch_fold]
  cases e with
  | mk nm fp ud uc ful =>
    simp only [ScanVariableUsage.URow.mk.injEq]
    refine ⟨trivial, trivial, ?_, ?_, ?_⟩
    · simp
    · simp
    · have hgen := ScanVariableUsage.head_first_eq
        (((ScanVariableUsage.processed_lines false lines).filter
          (fun pc => upperL (stripL nm) ≠ [] &&
            ScanVariableUsage.occursDelim (upperL (stripL nm)) pc.2)).head?)
      simpa using hgen
namespace PipelineNormalize
open Py

theorem rstripL_eq_nil_iff (l : List Char) :
    rstripL l = [] ↔ ∀ c ∈ l, isSpace c = true := by
  unfold rstripL lstripL
  rw [List.reverse_eq_nil_iff, List.dropWhile_eq_nil_iff]
  constructor
  · intro h c hc
    exact h c (List.mem_reverse.mpr hc)
  · intro h c hc
    exact h c (List.mem_reverse.mp hc)

theorem stripL_eq_nil_iff (l : List Char) :
    stripL l = [] ↔ ∀ c ∈ l, isSpace c = true := by
  unfold stripL
  rw [rstripL_eq_nil_iff]
  constructor
  · intro h c hc
    rcases List.mem_append.mp
        (by rw [List.takeWhile_append_dropWhile]; exact hc :
          c ∈ (l.takeWhile (fun c => isSpace c)) ++ (l.dropWhile (fun c => isSpace c))) with
      h1 | h2
    · exact List.mem_takeWhile_imp h1
    · exact h c h2
  · intro h c hc
    exact h c (List.Sublist.mem hc (List.dropWhile_sublist _))

theorem force80_length (l : List Char) : (force80 l).length = 80 := by
  unfold force80 ljustL
  split
  · simp only [List.length_append, List.length_replicate]
    omega
  · simp only [List.length_take]
    omega

theorem sentinel_code_nonblank (line : List Char)
    (h : is_copy_sentinel line = true) : stripL (sliceL line 7 72) ≠ [] := by
  unfold is_copy_sentinel at h
  split at h
  · exact absurd h (by simp)
  · split at h
    · exact absurd h (by simp)
    · rename_i hlen h6
      simp only [not_lt] at hlen
      simp only [ne_eq, Decidable.not_not] at h6
      intro hblank
      have hall : ∀ c ∈ sliceL line 7 72, isSpace c = true := (stripL_eq_nil_iff _).mp hblank
      have hsplit : sliceL line 6 72 = line.getD 6 ' ' :: sliceL line 7 72 := by
        unfold sliceL
        rw [List.drop_eq_getElem_cons (l := line.take 72) (by simp; omega)]
        congr 1
        rw [List.getElem_take, List.getD_eq_getElem line ' ' (by omega)]
      rw [hsplit, h6] at h
      have hstar : stripL ('*' :: sliceL line 7 72) = ['*'] := by
        have h1 : lstripL ('*' :: sliceL line 7 72) = '*' :: sliceL line 7 72 := by
          simp [lstripL, List.dropWhile_cons, isSpace]
        have h2 : rstripL (sliceL line 7 72) = [] := (rstripL_eq_nil_iff _).mpr hall
        unfold stripL
        rw [h1, rstripL_cons, h2]
        simp [isSpace]
      rw [hstar] at h
      simp [upperL, upperC, startsWith, S] at h
end PipelineNormalize
/-- C2 amended: for a raw line whose 80-column form carries the comment
indicator `*` and which is not removed by the earlier SMASH or JCL
filters, normalization keeps the line iff it is a copybook sentinel
(columns 7-72, trimmed, starting with `*COPYBOOK ` or `*END COPYBOOK`);
moreover the normalized output is exactly the kept lines renumbered
consecutively from the start value, as long as the sequence counter does
not pass 999999. -/
theorem c2_sentinel_filter_amended :
    (∀ raw : List Char,
        startsWith (S "SMASH") (lstripL (PipelineNormalize.rstripNl raw)) = false →
        startsWith (S "//") (PipelineNormalize.force80 (PipelineNormalize.rstripNl raw)) = false →
        (PipelineNormalize.force80 (PipelineNormalize.rstripNl raw)).getD 6 ' ' = '*' →
        (PipelineNormalize.keep_line raw = true ↔
          PipelineNormalize.is_copy_sentinel
            (PipelineNormalize.force80 (PipelineNormalize.rstripNl raw)) = true)) ∧
    (∀ (seq : Nat) (lines : List (List Char)),
        seq + (lines.filter PipelineNormalize.keep_line).length ≤ 1000000 →
        PipelineNormalize.normalize_lines seq lines =
          PipelineNormalize.renumber_from seq
            (lines.filter PipelineNormalize.keep_line)) := by
  constructor
  · intro raw hs hj h6
    unfold PipelineNormalize.keep_line
    dsimp only
    rw [hs, if_neg (by simp), hj, if_neg (by simp)]
    rw [if_pos (show (PipelineNormalize.force80 (PipelineNormalize.rstripNl raw)).length > 6
      from by rw [PipelineNormalize.force80_length]; norm_num)]
    rw [h6]
    by_cases hsent : PipelineNormalize.is_copy_sentinel
        (PipelineNormalize.force80 (PipelineNormalize.rstripNl raw)) = true
    · rw [hsent]
      simp only [Bool.not_true, Bool.and_false, Bool.false_eq_true, if_false]
      rw [if_neg (PipelineNormalize.sentinel_code_nonblank _ hsent)]
      simp [hsent]
    · simp only [Bool.not_eq_true] at hsent
      rw [hsent]
      simp
  · intro seq lines
    induction lines generalizing seq with
    | nil => intro _; rfl
    | cons raw rest ih =>
      intro hbound
      by_cases hk : PipelineNormalize.keep_line raw = true
      · rw [List.filter_cons_of_pos hk] at hbound ⊢
        simp only [List.length_cons] at hbound
        unfold PipelineNormalize.normalize_lines PipelineNormalize.renumber_from
        rw [if_pos hk]
        by_cases hovf : seq + 1 > 999999
        · have hlen : (rest.filter PipelineNormalize.keep_line).length = 0 := by omega
          rw [List.length_eq_zero] at hlen
          rw [hlen, if_pos hovf]
          rfl
        · rw [if_neg hovf, ih (seq + 1) (by omega)]
      · rw [List.filter_cons_of_neg hk] at hbound ⊢
        unfold PipelineNormalize.normalize_lines
        rw [if_neg hk]
        exact ih seq hbound

/-- C2 amended witness: the sentinel line `      *COPYBOOK CB1` satisfies
the hypotheses of the amended theorem, is kept, and the one-line file is
renumbered as the theorem states. -/
theorem c2_sentinel_filter_amended_witness :
    (PipelineNormalize.keep_line (S "      *COPYBOOK CB1") = true ↔
      PipelineNormalize.is_copy_sentinel
        (PipelineNormalize.force80 (PipelineNormalize.rstripNl (S "      *COPYBOOK CB1"))) = true) ∧
    PipelineNormalize.normalize_lines 1 [S "      *COPYBOOK CB1"] =
      PipelineNormalize.renumber_from 1
        ([S "      *COPYBOOK CB1"].filter PipelineNormalize.keep_line) :=
  ⟨c2_sentinel_filter_amended.1 (S "      *COPYBOOK CB1") (by decide) (by decide) (by decide),
   c2_sentinel_filter_amended.2 1 [S "      *COPYBOOK CB1"] (by decide)⟩
namespace BuildDataDictionary
open Py

theorem pop_stack_subset {lvl : Nat} {stack : List (Nat × List Char × List Char)}
    {s : Nat × List Char × List Char} (h : s ∈ pop_stack lvl stack) : s ∈ stack := by
  induction stack with
  | nil => simpa [pop_stack] using h
  | cons top rest ih =>
    rcases top with ⟨l, n, p⟩
    unfold pop_stack at h
    split at h
    · exact List.mem_cons_of_mem _ (ih h)
    · exact h

theorem pop_stack_head_lt {lvl : Nat} {stack rest2 : List (Nat × List Char × List Char)}
    {s : Nat × List Char × List Char} (h : pop_stack lvl stack = s :: rest2) : s.1 < lvl := by
  induction stack generalizing rest2 with
  | nil => simp [pop_stack] at h
  | cons top rest ih =>
    rcases top with ⟨l, n, p⟩
    unfold pop_stack at h
    split at h
    · exact ih h
    · rename_i hgt
      cases h
      omega

theorem go_parent (entries : List Entry) :
    ∀ (stack : List (Nat × List Char × List Char))
      (last88 : Option (Nat × List Char × List Char)) (e : Entry),
      e ∈ build_hierarchy_go stack last88 entries →
      2 ≤ level_nat e.level → level_nat e.level ≤ 49 → e.parent_name ≠ [] →
      (∃ s ∈ stack, s.2.1 = e.parent_name ∧
        s.2.2 ++ S "/" ++ e.name = e.full_path ∧ s.1 < level_nat e.level) ∨
      (∃ p ∈ build_hierarchy_go stack last88 entries,
        p.name = e.parent_name ∧ p.full_path ++ S "/" ++ e.name = e.full_path ∧
        level_nat p.level < level_nat e.level) := by
  induction entries with
  | nil => intro stack last88 e hmem; simp [build_hierarchy_go] at hmem
  | cons e0 rest ih =>
    intro stack last88 e hmem h2 h49 hne
    by_cases h88 : level_nat e0.level = 88
    · simp only [build_hierarchy_go] at hmem
      rw [if_pos h88] at hmem
      rcases List.mem_cons.mp hmem with he | he
      · subst he
        simp at h2 h49
        omega
      · rcases ih stack last88 e he h2 h49 hne with hL | ⟨p, hp, hprop⟩
        · exact Or.inl hL
        · right
          refine ⟨p, ?_, hprop⟩
          simp only [build_hierarchy_go]
          rw [if_pos h88]
          exact List.mem_cons_of_mem _ hp
    · by_cases h67 : (decide (level_nat e0.level = 66) || decide (level_nat e0.level = 77)) = true
      · simp only [build_hierarchy_go] at hmem
        rw [if_neg h88, if_pos h67] at hmem
        rcases List.mem_cons.mp hmem with he | he
        · subst he
          simp at hne
        · rcases ih [] (some (level_nat e0.level, e0.name, e0.name)) e he h2 h49 hne with
            hL | ⟨p, hp, hprop⟩
          · simp at hL
          · right
            refine ⟨p, ?_, hprop⟩
            simp only [build_hierarchy_go]
            rw [if_neg h88, if_pos h67]
            exact List.mem_cons_of_mem _ hp
      · rcases hstack2 : pop_stack (level_nat e0.level) stack with _ | ⟨⟨pl, pn2, pp⟩, stail⟩
        · have hunf : build_hierarchy_go stack last88 (e0 :: rest) =
              { e0 with parent_name := [], full_path := e0.name } ::
                build_hierarchy_go [(level_nat e0.level, e0.name, e0.name)]
                  (some (level_nat e0.level, e0.name, e0.name)) rest := by
            simp only [build_hierarchy_go]
            rw [if_neg h88, if_neg h67, hstack2]
          rw [hunf] at hmem
          rcases List.mem_cons.mp hmem with he | he
          · subst he
            simp at hne
          · rcases ih _ _ e he h2 h49 hne with ⟨s, hs, hsprop⟩ | ⟨p, hp, hprop⟩
            · rcases List.mem_cons.mp hs with hs0 | hs1
              · right
                subst hs0
                refine ⟨{ e0 with parent_name := [], full_path := e0.name }, ?_, ?_⟩
                · rw [hunf]
                  exact List.mem_cons_self _ _
                · simp only at hsprop ⊢
                  exact ⟨hsprop.1, hsprop.2.1, by simpa using hsprop.2.2⟩
              · simp at hs1
            · right
              refine ⟨p, ?_, hprop⟩
              rw [hunf]
              exact List.mem_cons_of_mem _ hp
        · have hunf : build_hierarchy_go stack last88 (e0 :: rest) =
              { e0 with parent_name := pn2, full_path := pp ++ S "/" ++ e0.name } ::
                build_hierarchy_go
                  ((level_nat e0.level, e0.name, pp ++ S "/" ++ e0.name) ::
                    (pl, pn2, pp) :: stail)
                  (some (level_nat e0.level, e0.name, pp ++ S "/" ++ e0.name)) rest := by
            simp only [build_hierarchy_go]
            rw [if_neg h88, if_neg h67, hstack2]
          rw [hunf] at hmem
          rcases List.mem_cons.mp hmem with he | he
          · subst he
            left
            refine ⟨(pl, pn2, pp), pop_stack_subset (hstack2 ▸ List.mem_cons_self _ _),
              rfl, rfl, ?_⟩
            have := pop_stack_head_lt hstack2
            simpa using this
          · rcases ih _ _ e he h2 h49 hne with ⟨s, hs, hsprop⟩ | ⟨p, hp, hprop⟩
            · rcases List.mem_cons.mp hs with hs0 | hs1
              · right
                subst hs0
                refine ⟨{ e0 with parent_name := pn2, full_path := pp ++ S "/" ++ e0.name },
                  ?_, ?_⟩
                · rw [hunf]
                  exact List.mem_cons_self _ _
                · simp only at hsprop ⊢
                  exact ⟨hsprop.1, hsprop.2.1, by simpa using hsprop.2.2⟩
              · left
                exact ⟨s, pop_stack_subset (hstack2 ▸ hs1), hsprop⟩
            · right
              refine ⟨p, ?_, hprop⟩
              rw [hunf]
              exact List.mem_cons_of_mem _ hp

end BuildDataDictionary

/-- C5 amended: after hierarchy construction, every DataItem whose level
is in 2..49 and whose parent reference is non-empty has its parent among
the produced items: an item whose name matches the parent reference,
whose full_path extended by a slash and the child name gives the child's
full_path, and whose level is strictly below the child's. (Items at level
2..49 declared with no enclosing lower-level item open keep an empty
parent reference, as the counterexample shows.) -/
theorem c5_parent_amended (entries : List BuildDataDictionary.Entry)
    (e : BuildDataDictionary.Entry)
    (hmem : e ∈ BuildDataDictionary.build_hierarchy entries)
    (h2 : 2 ≤ BuildDataDictionary.level_nat e.level)
    (h49 : BuildDataDictionary.level_nat e.level ≤ 49)
    (hne : e.parent_name ≠ []) :
    ∃ p ∈ BuildDataDictionary.build_hierarchy entries,
      p.name = e.parent_name ∧
      p.full_path ++ Py.S "/" ++ e.name = e.full_path ∧
      BuildDataDictionary.level_nat p.level < BuildDataDictionary.level_nat e.level := by
  rcases BuildDataDictionary.go_parent entries [] none e hmem h2 h49 hne with ⟨s, hs, _⟩ | h
  · simp at hs
  · exact h

/-- C5 amended witness: a level-05 field below a level-01 group has the
group as its produced parent. -/
theorem c5_parent_amended_witness :
    ∃ p ∈ BuildDataDictionary.build_hierarchy
        [⟨[], [], [], Py.S "01", Py.S "GRP", [], [], []⟩,
         ⟨[], [], [], Py.S "05", Py.S "FLD", [], [], []⟩],
      p.name = Py.S "GRP" ∧
      p.full_path ++ Py.S "/" ++ Py.S "FLD" = Py.S "GRP/FLD" ∧
      BuildDataDictionary.level_nat p.level < BuildDataDictionary.level_nat (Py.S "05") :=
  c5_parent_amended
    [⟨[], [], [], Py.S "01", Py.S "GRP", [], [], []⟩,
     ⟨[], [], [], Py.S "05", Py.S "FLD", [], [], []⟩]
    ⟨[], [], [], Py.S "05", Py.S "FLD", Py.S "GRP", Py.S "GRP/FLD", []⟩
    (by decide) (by decide) (by decide) (by decide)
namespace BuildDataDictionary
open Py

theorem go_shape (entries : List Entry) :
    ∀ (stack : List (Nat × List Char × List Char))
      (last88 : Option (Nat × List Char × List Char)) (e : Entry),
      e ∈ build_hierarchy_go stack last88 entries →
      e.name ∈ entries.map (fun x => x.name) ∧
      ((∃ pre, e.full_path = pre ++ '/' :: e.name) ∨ e.full_path = e.name) := by
  induction entries with
  | nil => intro stack last88 e hmem; simp [build_hierarchy_go] at hmem
  | cons e0 rest ih =>
    intro stack last88 e hmem
    by_cases h88 : level_nat e0.level = 88
    · simp only [build_hierarchy_go] at hmem
      rw [if_pos h88] at hmem
      rcases List.mem_cons.mp hmem with he | he
      · subst he
        rcases last88 with _ | ⟨l, n, p⟩
        · exact ⟨by simp, Or.inr rfl⟩
        · refine ⟨by simp, Or.inl ⟨p, ?_⟩⟩
          simp [S]
      · rcases ih _ _ e he with ⟨h1, h2⟩
        exact ⟨by simp [h1], h2⟩
    · by_cases h67 : (decide (level_nat e0.level = 66) || decide (level_nat e0.level = 77)) = true
      · simp only [build_hierarchy_go] at hmem
        rw [if_neg h88, if_pos h67] at hmem
        rcases List.mem_cons.mp hmem with he | he
        · subst he
          exact ⟨by simp, Or.inr rfl⟩
        · rcases ih _ _ e he with ⟨h1, h2⟩
          exact ⟨by simp [h1], h2⟩
      · simp only [build_hierarchy_go] at hmem
        rw [if_neg h88, if_neg h67] at hmem
        rcases hstack2 : pop_stack (level_nat e0.level) stack with _ | ⟨⟨pl, pn2, pp⟩, stail⟩
        all_goals rw [hstack2] at hmem
        · rcases List.mem_cons.mp hmem with he | he
          · subst he
            exact ⟨by simp, Or.inr rfl⟩
          · rcases ih _ _ e he with ⟨h1, h2⟩
            exact ⟨by simp [h1], h2⟩
        · rcases List.mem_cons.mp hmem with he | he
          · subst he
            refine ⟨by simp, Or.inl ⟨pp, ?_⟩⟩
            simp [S]
          · rcases ih _ _ e he with ⟨h1, h2⟩
            exact ⟨by simp [h1], h2⟩

theorem takeWhile_of_append {p : Char → Bool} (xs ys : List Char) (y : Char)
    (hxs : ∀ x ∈ xs, p x = true) (hy : p y = false) :
    List.takeWhile p (xs ++ y :: ys) = xs := by
  rw [List.takeWhile_append]
  rw [if_pos]
  · rw [List.takeWhile_cons_of_neg (by simp [hy])]
    simp
  · rw [List.takeWhile_eq_self_iff.mpr hxs]

theorem last_segment_eq {pre1 n1 pre2 n2 : List Char}
    (h1 : '/' ∉ n1) (h2 : '/' ∉ n2)
    (heq : pre1 ++ '/' :: n1 = pre2 ++ '/' :: n2) : n1 = n2 := by
  have hrev : n1.reverse ++ '/' :: pre1.reverse = n2.reverse ++ '/' :: pre2.reverse := by
    have := congrArg List.reverse heq
    simpa using this
  have ht1 : List.takeWhile (fun c => c ≠ '/') (n1.reverse ++ '/' :: pre1.reverse) = n1.reverse := by
    apply takeWhile_of_append
    · intro x hx
      simp only [ne_eq, decide_eq_true_eq]
      intro hxe
      subst hxe
      exact h1 (List.mem_reverse.mp hx)
    · simp
  have ht2 : List.takeWhile (fun c => c ≠ '/') (n2.reverse ++ '/' :: pre2.reverse) = n2.reverse := by
    apply takeWhile_of_append
    · intro x hx
      simp only [ne_eq, decide_eq_true_eq]
      intro hxe
      subst hxe
      exact h2 (List.mem_reverse.mp hx)
    · simp
  have : n1.reverse = n2.reverse := by rw [← ht1, ← ht2, hrev]
  simpa using congrArg List.reverse this

end BuildDataDictionary

/-- C6 amended: within one run of hierarchy construction (in particular
within one program and section), two produced DataItems can share a
full_path only if they bear the same name: every full_path ends in the
item's own name segment, so distinct names force distinct full_paths.
Uniqueness as originally claimed fails only for identically named items
under identical ancestor chains (see the counterexample). Declaration
names never contain a slash (they are captured from `[A-Z0-9-]+`), which
the hypothesis records. -/
theorem c6_full_path_amended (entries : List BuildDataDictionary.Entry)
    (hnames : ∀ x ∈ entries, '/' ∉ x.name) :
    ∀ e1 ∈ BuildDataDictionary.build_hierarchy entries,
      ∀ e2 ∈ BuildDataDictionary.build_hierarchy entries,
        e1.full_path = e2.full_path → e1.name = e2.name := by
  intro e1 h1 e2 h2 heq
  obtain ⟨hn1, hs1⟩ := BuildDataDictionary.go_shape entries [] none e1 h1
  obtain ⟨hn2, hs2⟩ := BuildDataDictionary.go_shape entries [] none e2 h2
  have hsl1 : '/' ∉ e1.name := by
    simp only [List.mem_map] at hn1
    obtain ⟨x, hx, he⟩ := hn1
    exact he ▸ hnames x hx
  have hsl2 : '/' ∉ e2.name := by
    simp only [List.mem_map] at hn2
    obtain ⟨x, hx, he⟩ := hn2
    exact he ▸ hnames x hx
  rcases hs1 with ⟨p1, hp1⟩ | hp1 <;> rcases hs2 with ⟨p2, hp2⟩ | hp2
  · exact BuildDataDictionary.last_segment_eq hsl1 hsl2 (by rw [← hp1, ← hp2, heq])
  · exfalso
    apply hsl2
    rw [← hp2, ← heq, hp1]
    simp
  · exfalso
    apply hsl1
    rw [← hp1, heq, hp2]
    simp
  · rw [hp1, hp2] at heq
    exact heq

/-- C6 amended witness: the two identical level-01 declarations of A
(distinct items, distinguished by their line numbers) share the full_path
`A`, and the amended theorem applies to them, giving equal names. -/
theorem c6_full_path_amended_witness :
    (⟨[], [], [], Py.S "01", Py.S "A", [], Py.S "A", Py.S "000003"⟩ :
        BuildDataDictionary.Entry).name =
      (⟨[], [], [], Py.S "01", Py.S "A", [], Py.S "A", Py.S "000004"⟩ :
        BuildDataDictionary.Entry).name :=
  c6_full_path_amended
    [⟨[], [], [], Py.S "01", Py.S "A", [], [], Py.S "000003"⟩,
     ⟨[], [], [], Py.S "01", Py.S "A", [], [], Py.S "000004"⟩]
    (by decide)
    ⟨[], [], [], Py.S "01", Py.S "A", [], Py.S "A", Py.S "000003"⟩ (by decide)
    ⟨[], [], [], Py.S "01", Py.S "A", [], Py.S "A", Py.S "000004"⟩ (by decide)
    (by decide)
namespace PipelineCopyExpander
open Py

theorem expand_fuel_mono :
    ∀ (f : Nat) (lib : Lib) (stack : List (List Char)) (lines : List (List Char))
      (out : List (List Char)),
      expand_fuel f lib stack lines = some out →
      expand_fuel (f + 1) lib stack lines = some out := by
  intro f
  induction f with
  | zero => intro lib stack lines out h; simp [expand_fuel] at h
  | succ f ih =>
    intro lib stack lines out h
    cases lines with
    | nil => simpa [expand_fuel] using h
    | cons raw rest =>
      cases hp : parse_copy_line raw with
      | none =>
        simp only [expand_fuel, hp, Option.map_eq_some'] at h ⊢
        obtain ⟨o, ho, hout⟩ := h
        exact ⟨o, ih _ _ _ _ ho, hout⟩
      | some name =>
        simp only [expand_fuel, hp] at h ⊢
        by_cases hst : stack.contains name = true
        · rw [if_pos hst] at h ⊢
          simp only [Option.map_eq_some'] at h ⊢
          obtain ⟨o, ho, hout⟩ := h
          exact ⟨o, ih _ _ _ _ ho, hout⟩
        · rw [if_neg hst] at h ⊢
          cases hf : find_copy_file lib name with
          | none =>
            simp only [hf, Option.map_eq_some'] at h ⊢
            obtain ⟨o, ho, hout⟩ := h
            exact ⟨o, ih _ _ _ _ ho, hout⟩
          | some body =>
            simp only [hf] at h ⊢
            cases hb : expand_fuel f lib (name :: stack) body with
            | none => rw [hb] at h; exact absurd h (by simp)
            | some inner =>
              rw [hb] at h
              rw [ih _ _ _ _ hb]
              cases hr : expand_fuel f lib stack rest with
              | none => rw [hr] at h; exact absurd h (by simp)
              | some o2 =>
                rw [hr] at h
                rw [ih _ _ _ _ hr]
                exact h

theorem expand_fuel_le {f g : Nat} (hfg : f ≤ g) {lib : Lib} {stack : List (List Char)}
    {lines : List (List Char)} {out : List (List Char)}
    (h : expand_fuel f lib stack lines = some out) :
    expand_fuel g lib stack lines = some out := by
  induction g with
  | zero =>
    have : f = 0 := by omega
    subst this
    exact h
  | succ g ihg =>
    rcases Nat.lt_or_ge f (g + 1) with hlt | hge
    · exact expand_fuel_mono g _ _ _ _ (ihg (by omega))
    · have : f = g + 1 := by omega
      subst this
      exact h

theorem find_copy_file_mem {lib : Lib} {name : List Char} {body : List (List Char)}
    (h : find_copy_file lib name = some body) : name ∈ lib.map Prod.fst := by
  induction lib with
  | nil => simp [find_copy_file] at h
  | cons kv rest ih =>
    rcases kv with ⟨k, b⟩
    unfold find_copy_file at h
    split at h
    · rename_i hk
      simp [hk]
    · simp [ih h]

theorem filter_mono_length {α : Type} (p q : α → Bool)
    (hpq : ∀ x, q x = true → p x = true) (l : List α) :
    (l.filter q).length ≤ (l.filter p).length := by
  induction l with
  | nil => simp
  | cons x xs ih =>
    by_cases hq : q x = true
    · rw [List.filter_cons_of_pos hq, List.filter_cons_of_pos (hpq x hq)]
      simpa using ih
    · rw [List.filter_cons_of_neg (by simpa using hq)]
      by_cases hp : p x = true
      · rw [List.filter_cons_of_pos hp]
        simp only [List.length_cons]
        omega
      · rw [List.filter_cons_of_neg (by simpa using hp)]
        exact ih

theorem filter_lt_length {α : Type} [DecidableEq α] (p q : α → Bool) (a : α) (l : List α)
    (ha : a ∈ l) (hpa : p a = true) (hqa : q a = false)
    (hpq : ∀ x, q x = true → p x = true) :
    (l.filter q).length < (l.filter p).length := by
  induction l with
  | nil => simp at ha
  | cons x xs ih =>
    rcases List.mem_cons.mp ha with hx | hx
    · subst hx
      rw [List.filter_cons_of_pos hpa, List.filter_cons_of_neg (by simp [hqa])]
      have := filter_mono_length p q hpq xs
      simp only [List.length_cons]
      omega
    · by_cases hq : q x = true
      · rw [List.filter_cons_of_pos hq, List.filter_cons_of_pos (hpq x hq)]
        simpa using ih hx
      · rw [List.filter_cons_of_neg (by simpa using hq)]
        by_cases hp : p x = true
        · rw [List.filter_cons_of_pos hp]
          have := ih hx
          simp only [List.length_cons]
          omega
        · rw [List.filter_cons_of_neg (by simpa using hp)]
          exact ih hx

theorem keys_not_in_lt {lib : Lib} {stack : List (List Char)} {name : List Char}
    (hmem : name ∈ lib.map Prod.fst) (hst : ¬ stack.contains name = true) :
    keys_not_in lib (name :: stack) < keys_not_in lib stack := by
  unfold keys_not_in
  apply filter_lt_length _ _ name _ hmem
  · simpa using hst
  · simp
  · intro x hx
    simp only [Bool.not_eq_true'] at hx ⊢
    simp only [List.contains_cons] at hx
    rcases Bool.or_eq_false_iff.mp hx with ⟨_, h2⟩
    exact h2

theorem expand_fuel_exists :
    ∀ (k : Nat) (lib : Lib) (stack : List (List Char)),
      keys_not_in lib stack ≤ k →
      ∀ lines, ∃ f out, expand_fuel f lib stack lines = some out := by
  intro k
  induction k with
  | zero =>
    intro lib stack hk lines
    induction lines with
    | nil => exact ⟨1, [], rfl⟩
    | cons raw rest ihl =>
      obtain ⟨fr, outr, hr⟩ := ihl
      cases hp : parse_copy_line raw with
      | none =>
        refine ⟨fr + 1, ensure_nl raw :: outr, ?_⟩
        simp only [expand_fuel, hp, hr, Option.map_some']
      | some name =>
        by_cases hst : stack.contains name = true
        · refine ⟨fr + 1, ensure_nl raw :: outr, ?_⟩
          simp only [expand_fuel, hp, if_pos hst, hr, Option.map_some']
        · cases hf : find_copy_file lib name with
          | none =>
            refine ⟨fr + 1, ensure_nl raw :: outr, ?_⟩
            simp only [expand_fuel, hp, if_neg hst, hf, hr, Option.map_some']
          | some body =>
            exfalso
            have := keys_not_in_lt (find_copy_file_mem hf) hst
            omega
  | succ k ihk =>
    intro lib stack hk lines
    induction lines with
    | nil => exact ⟨1, [], rfl⟩
    | cons raw rest ihl =>
      obtain ⟨fr, outr, hr⟩ := ihl
      cases hp : parse_copy_line raw with
      | none =>
        refine ⟨fr + 1, ensure_nl raw :: outr, ?_⟩
        simp only [expand_fuel, hp, hr, Option.map_some']
      | some name =>
        by_cases hst : stack.contains name = true
        · refine ⟨fr + 1, ensure_nl raw :: outr, ?_⟩
          simp only [expand_fuel, hp, if_pos hst, hr, Option.map_some']
        · cases hf : find_copy_file lib name with
          | none =>
            refine ⟨fr + 1, ensure_nl raw :: outr, ?_⟩
            simp only [expand_fuel, hp, if_neg hst, hf, hr, Option.map_some']
          | some body =>
            have hk2 : keys_not_in lib (name :: stack) ≤ k := by
              have := keys_not_in_lt (find_copy_file_mem hf) hst
              omega
            obtain ⟨fb, outb, hb⟩ := ihk lib (name :: stack) hk2 body
            refine ⟨max fb fr + 1,
              sentinel_start name :: (outb ++ sentinel_end name :: outr), ?_⟩
            simp only [expand_fuel, hp, if_neg hst, hf]
            rw [expand_fuel_le (Nat.le_max_left fb fr) hb,
              expand_fuel_le (Nat.le_max_right fb fr) hr]

end PipelineCopyExpander

/-- C3: copy-module cycle protection. For every copybook library (cyclic
or not) and every input line list, the expansion has a stable result:
some fuel bound exists past which the fuel-indexed recursion always
returns the same output, i.e. the recursion terminates with no failure —
the anti-cycle stack bounds the inclusion depth by the number of unused
library names. Moreover a COPY statement whose module name is already on
the stack (the innermost, cycle-closing statement) is emitted as its
original literal text, the rest of the lines being processed normally. -/
theorem c3_copy_cycle_protection (lib : PipelineCopyExpander.Lib)
    (lines : List (List Char)) :
    (∃ out f0, ∀ f, f0 ≤ f →
      PipelineCopyExpander.expand_fuel f lib [] lines = some out) ∧
    (∀ (f : Nat) (lib2 : PipelineCopyExpander.Lib) (stack : List (List Char))
        (raw : List Char) (rest : List (List Char)) (name : List Char),
      PipelineCopyExpander.parse_copy_line raw = some name →
      stack.contains name = true →
      PipelineCopyExpander.expand_fuel (f + 1) lib2 stack (raw :: rest) =
        (PipelineCopyExpander.expand_fuel f lib2 stack rest).map
          (fun out => PipelineCopyExpander.ensure_nl raw :: out)) := by
  constructor
  · obtain ⟨f0, out, h⟩ :=
      PipelineCopyExpander.expand_fuel_exists (PipelineCopyExpander.keys_not_in lib [])
        lib [] (Nat.le_refl _) lines
    exact ⟨out, f0, fun f hf => PipelineCopyExpander.expand_fuel_le hf h⟩
  · intro f lib2 stack raw rest name hp hst
    simp only [PipelineCopyExpander.expand_fuel, hp, if_pos hst]

/-- C3 witness: with the self-referential library where module A contains
`COPY A.`, expanding `COPY A.` with A already on the stack leaves the
statement as literal text, and expanding the program from an empty stack
has a stable terminating result. -/
theorem c3_copy_cycle_protection_witness :
    PipelineCopyExpander.expand_fuel 2 [(S "A", [S "COPY A.\n"])] [S "A"]
        [S "COPY A.\n"] = some [S "COPY A.\n"] ∧
    (∃ out f0, ∀ f, f0 ≤ f →
      PipelineCopyExpander.expand_fuel f [(S "A", [S "COPY A.\n"])] []
        [S "COPY A.\n"] = some out) := by
  constructor
  · have h := (c3_copy_cycle_protection [(S "A", [S "COPY A.\n"])] [S "COPY A.\n"]).2
      1 [(S "A", [S "COPY A.\n"])] [S "A"] (S "COPY A.\n") [] (S "A")
      (by decide) (by decide)
    rw [h]
    decide
  · exact (c3_copy_cycle_protection [(S "A", [S "COPY A.\n"])] [S "COPY A.\n"]).1
namespace ReportMarkdown
open Py

theorem dfs_mono :
    ∀ (f : Nat) (g : Graph) (ns stack : List (List Char)) (st st2 : DfsSt),
      dfs_list f g ns stack st = some st2 →
      dfs_list (f + 1) g ns stack st = some st2 := by
  intro f
  induction f with
  | zero => intro g ns stack st st2 h; simp [dfs_list] at h
  | succ f ih =>
    intro g ns stack st st2 h
    cases ns with
    | nil => simpa [dfs_list] using h
    | cons current ss =>
      simp only [dfs_list] at h ⊢
      by_cases hcur : stack.contains current = true
      · rw [if_pos hcur] at h ⊢
        exact ih _ _ _ _ _ h
      · rw [if_neg hcur] at h ⊢
        by_cases hsucc : (succs g current).isEmpty = true
        · rw [if_pos hsucc] at h ⊢
          exact ih _ _ _ _ _ h
        · rw [if_neg hsucc] at h ⊢
          cases hin : dfs_list f g (succs g current) (stack ++ [current]) st with
          | none => rw [hin] at h; exact absurd h (by simp)
          | some st1 =>
            rw [hin] at h
            rw [ih _ _ _ _ _ hin]
            exact ih _ _ _ _ _ h

theorem dfs_le {f f2 : Nat} (hf : f ≤ f2) {g : Graph} {ns stack : List (List Char)}
    {st st2 : DfsSt} (h : dfs_list f g ns stack st = some st2) :
    dfs_list f2 g ns stack st = some st2 := by
  induction f2 with
  | zero =>
    have : f = 0 := by omega
    subst this
    exact h
  | succ f2 ih =>
    rcases Nat.lt_or_ge f (f2 + 1) with hlt | hge
    · exact dfs_mono f2 _ _ _ _ _ (ih (by omega))
    · have : f = f2 + 1 := by omega
      subst this
      exact h

theorem graph_lookup_mem {g : Graph} {n : List Char}
    (h : graph_lookup g n ≠ []) : n ∈ g.map Prod.fst := by
  induction g with
  | nil => simp [graph_lookup] at h
  | cons kv rest ih =>
    rcases kv with ⟨k, vs⟩
    unfold graph_lookup at h
    split at h
    · rename_i hk
      simp [hk]
    · simp [ih h]

theorem insertSorted_ne_nil (x : List Char) (l : List (List Char)) :
    insertSorted x l ≠ [] := by
  cases l with
  | nil => simp [insertSorted]
  | cons y ys =>
    unfold insertSorted
    split <;> simp

theorem sortStrings_eq_nil {l : List (List Char)} (h : sortStrings l = []) : l = [] := by
  cases l with
  | nil => rfl
  | cons x xs =>
    unfold sortStrings at h
    exact absurd h (insertSorted_ne_nil _ _)

theorem succs_mem_keys {g : Graph} {n : List Char}
    (h : ¬ (succs g n).isEmpty = true) : n ∈ g.map Prod.fst := by
  apply graph_lookup_mem
  intro hnil
  apply h
  unfold succs
  rw [hnil]
  rfl

theorem keys_not_on_lt {g : Graph} {stack : List (List Char)} {name : List Char}
    (hmem : name ∈ g.map Prod.fst) (hst : ¬ stack.contains name = true) :
    keys_not_on g (stack ++ [name]) < keys_not_on g stack := by
  unfold keys_not_on
  apply PipelineCopyExpander.filter_lt_length _ _ name _ hmem
  · simpa using hst
  · simp [List.contains_eq_any_beq, List.any_append]
  · intro x hx
    simp only [Bool.not_eq_true'] at hx ⊢
    simp only [List.contains_eq_any_beq, List.any_append, Bool.or_eq_false_iff] at hx
    simp only [List.contains_eq_any_beq]
    exact hx.1

theorem dfs_exists :
    ∀ (k : Nat) (g : Graph) (stack : List (List Char)),
      keys_not_on g stack ≤ k →
      ∀ (ns : List (List Char)) (st : DfsSt),
        ∃ f st2, dfs_list f g ns stack st = some st2 := by
  intro k
  induction k with
  | zero =>
    intro g stack hk ns
    induction ns with
    | nil => intro st; exact ⟨1, st, rfl⟩
    | cons current ss ihn =>
      intro st
      by_cases hcur : stack.contains current = true
      · obtain ⟨fr, st2, hr⟩ := ihn st
        exact ⟨fr + 1, st2, by simp only [dfs_list, if_pos hcur]; exact hr⟩
      · by_cases hsucc : (succs g current).isEmpty = true
        · obtain ⟨fr, st2, hr⟩ := ihn (record_leaf st (stack ++ [current]))
          exact ⟨fr + 1, st2, by simp only [dfs_list, if_neg hcur, if_pos hsucc]; exact hr⟩
        · exfalso
          have := keys_not_on_lt (succs_mem_keys hsucc) hcur
          omega
  | succ k ihk =>
    intro g stack hk ns
    induction ns with
    | nil => intro st; exact ⟨1, st, rfl⟩
    | cons current ss ihn =>
      intro st
      by_cases hcur : stack.contains current = true
      · obtain ⟨fr, st2, hr⟩ := ihn st
        exact ⟨fr + 1, st2, by simp only [dfs_list, if_pos hcur]; exact hr⟩
      · by_cases hsucc : (succs g current).isEmpty = true
        · obtain ⟨fr, st2, hr⟩ := ihn (record_leaf st (stack ++ [current]))
          exact ⟨fr + 1, st2, by simp only [dfs_list, if_neg hcur, if_pos hsucc]; exact hr⟩
        · have hk2 : keys_not_on g (stack ++ [current]) ≤ k := by
            have := keys_not_on_lt (succs_mem_keys hsucc) hcur
            omega
          obtain ⟨fb, st1, hb⟩ := ihk g (stack ++ [current]) hk2 (succs g current) st
          obtain ⟨fr, st2, hr⟩ := ihn st1
          refine ⟨max fb fr + 1, st2, ?_⟩
          simp only [dfs_list, if_neg hcur, if_neg hsucc]
          rw [dfs_le (Nat.le_max_left fb fr) hb]
          exact dfs_le (Nat.le_max_right fb fr) hr

end ReportMarkdown
namespace ReportMarkdown

theorem mem_contains {l : List (List Char)} {a : List Char} (h : a ∈ l) :
    l.contains a = true := by
  simpa using h

theorem contains_false_iff (l : List (List Char)) (a : List Char) :
    l.contains a = false ↔ a ∉ l := by
  simp

theorem nodupB_iff : ∀ l : List (List Char), nodupB l = true ↔ l.Nodup := by
  intro l
  induction l with
  | nil => simp [nodupB]
  | cons x xs ih => simp [nodupB, ih, List.nodup_cons]

theorem record_leaf_fst_ge_stack (st : DfsSt) (stack : List (List Char)) :
    stack.length ≤ (record_leaf st stack).1 := by
  unfold record_leaf
  dsimp only
  split
  · simp
  · split
    · rename_i h1 h2
      simp only [Bool.and_eq_true, decide_eq_true_eq] at h2
      simp only [not_lt] at h1
      exact h1
    · rename_i h1 _
      simp only [not_lt] at h1
      exact h1

theorem record_leaf_fst_ge_st (st : DfsSt) (stack : List (List Char)) :
    st.1 ≤ (record_leaf st stack).1 := by
  unfold record_leaf
  dsimp only
  split
  · rename_i h1; exact Nat.le_of_lt h1
  · split <;> exact Nat.le_refl _

theorem dfs_fst_mono :
    ∀ (f : Nat) (g : Graph) (ns stack : List (List Char)) (st st2 : DfsSt),
      dfs_list f g ns stack st = some st2 → st.1 ≤ st2.1 := by
  intro f
  induction f with
  | zero => intro g ns stack st st2 h; simp [dfs_list] at h
  | succ f ih =>
    intro g ns stack st st2 h
    cases ns with
    | nil =>
      simp only [dfs_list, Option.some.injEq] at h
      subst h; exact Nat.le_refl _
    | cons current ss =>
      simp only [dfs_list] at h
      by_cases hcur : stack.contains current = true
      · rw [if_pos hcur] at h
        exact ih _ _ _ _ _ h
      · rw [if_neg hcur] at h
        by_cases hsucc : (succs g current).isEmpty = true
        · rw [if_pos hsucc] at h
          exact Nat.le_trans (record_leaf_fst_ge_st st _) (ih _ _ _ _ _ h)
        · rw [if_neg hsucc] at h
          cases hin : dfs_list f g (succs g current) (stack ++ [current]) st with
          | none => rw [hin] at h; exact absurd h (by simp)
          | some st1 =>
            rw [hin] at h
            exact Nat.le_trans (ih _ _ _ _ _ hin) (ih _ _ _ _ _ h)

theorem record_leaf_ExInv {st : DfsSt} (stack : List (List Char))
    (h : ExInv st) : ExInv (record_leaf st stack) := by
  unfold record_leaf
  dsimp only
  split
  · exact ⟨by simp, by simp⟩
  · split
    · rename_i h1 h2
      simp only [Bool.and_eq_true, decide_eq_true_eq] at h2
      constructor
      · simp only [List.length_append, List.length_singleton]
        omega
      · intro ch hch
        rcases List.mem_append.mp hch with hm | hm
        · exact h.2 ch hm
        · simp only [List.mem_singleton] at hm
          subst hm
          exact h2.1.1
    · exact h

theorem dfs_ExInv :
    ∀ (f : Nat) (g : Graph) (ns stack : List (List Char)) (st st2 : DfsSt),
      dfs_list f g ns stack st = some st2 → ExInv st → ExInv st2 := by
  intro f
  induction f with
  | zero => intro g ns stack st st2 h; simp [dfs_list] at h
  | succ f ih =>
    intro g ns stack st st2 h hinv
    cases ns with
    | nil =>
      simp only [dfs_list, Option.some.injEq] at h
      subst h; exact hinv
    | cons current ss =>
      simp only [dfs_list] at h
      by_cases hcur : stack.contains current = true
      · rw [if_pos hcur] at h
        exact ih _ _ _ _ _ h hinv
      · rw [if_neg hcur] at h
        by_cases hsucc : (succs g current).isEmpty = true
        · rw [if_pos hsucc] at h
          exact ih _ _ _ _ _ h (record_leaf_ExInv _ hinv)
        · rw [if_neg hsucc] at h
          cases hin : dfs_list f g (succs g current) (stack ++ [current]) st with
          | none => rw [hin] at h; exact absurd h (by simp)
          | some st1 =>
            rw [hin] at h
            exact ih _ _ _ _ _ h (ih _ _ _ _ _ hin hinv)

theorem nodupB_append_singleton {l : List (List Char)} {x : List Char}
    (hn : nodupB l = true) (hx : l.contains x = false) :
    nodupB (l ++ [x]) = true := by
  rw [nodupB_iff] at hn ⊢
  rw [contains_false_iff] at hx
  simp [List.nodup_append, hn]
  exact hx

theorem is_chain_append_singleton {g : Graph} {l : List (List Char)} {x : List Char}
    (hc : is_chain g l = true)
    (hlast : ∀ last, l.getLast? = some last → (succs g last).contains x = true) :
    is_chain g (l ++ [x]) = true := by
  induction l with
  | nil => simp [is_chain]
  | cons a t ih =>
    cases t with
    | nil =>
      simp only [List.cons_append, List.nil_append, is_chain, Bool.and_eq_true]
      exact ⟨hlast a rfl, trivial⟩
    | cons b t2 =>
      simp only [is_chain, Bool.and_eq_true] at hc
      simp only [List.cons_append, is_chain, Bool.and_eq_true]
      refine ⟨hc.1, ?_⟩
      have := ih hc.2 (fun last hl => hlast last (by rw [List.getLast?_cons_cons]; exact hl))
      simpa using this

end ReportMarkdown
namespace ReportMarkdown

theorem dfs_complete :
    ∀ (f : Nat) (g : Graph) (ns stack : List (List Char)) (st st2 : DfsSt),
      dfs_list f g ns stack st = some st2 →
      ∀ (x : List Char) (q : List (List Char)),
        x ∈ ns → is_chain g (x :: q) = true → nodupB (x :: q) = true →
        (∀ y ∈ x :: q, y ∉ stack) →
        (succs g ((x :: q).getLast (by simp))).isEmpty = true →
        stack.length + (x :: q).length ≤ st2.1 := by
  intro f
  induction f with
  | zero => intro g ns stack st st2 h; simp [dfs_list] at h
  | succ f ih =>
    intro g ns stack st st2 h x q hx hchain hnodup hdisj hlast
    cases ns with
    | nil => simp at hx
    | cons current ss =>
      simp only [dfs_list] at h
      by_cases hcur : stack.contains current = true
      · rw [if_pos hcur] at h
        have hxss : x ∈ ss := by
          rcases List.mem_cons.mp hx with he | hm
          · exact absurd (he ▸ AnalysisCore.contains_mem hcur) (hdisj x (by simp))
          · exact hm
        exact ih _ _ _ _ _ h x q hxss hchain hnodup hdisj hlast
      · rw [if_neg hcur] at h
        by_cases hxc : x = current
        · subst hxc
          cases q with
          | nil =>
            have hse : (succs g x).isEmpty = true := by simpa using hlast
            rw [if_pos hse] at h
            have h1 := record_leaf_fst_ge_stack st (stack ++ [x])
            have h2 := dfs_fst_mono _ _ _ _ _ _ h
            simp only [List.length_append, List.length_singleton] at h1
            simp only [List.length_cons, List.length_nil]
            omega
          | cons y q2 =>
            have hychain : ((succs g x).contains y && is_chain g (y :: q2)) = true :=
              hchain
            simp only [Bool.and_eq_true] at hychain
            have hymem : y ∈ succs g x := AnalysisCore.contains_mem hychain.1
            have hne : ¬ (succs g x).isEmpty = true := by
              intro hemp
              rw [List.isEmpty_iff] at hemp
              rw [hemp] at hymem
              simp at hymem
            rw [if_neg hne] at h
            cases hin : dfs_list f g (succs g x) (stack ++ [x]) st with
            | none => rw [hin] at h; exact absurd h (by simp)
            | some st1 =>
              rw [hin] at h
              have hnodup2 : nodupB (y :: q2) = true := by
                have : (!(y :: q2).contains x && nodupB (y :: q2)) = true := hnodup
                simp only [Bool.and_eq_true] at this
                exact this.2
              have hxnotin : (y :: q2).contains x = false := by
                have : (!(y :: q2).contains x && nodupB (y :: q2)) = true := hnodup
                simp only [Bool.and_eq_true, Bool.not_eq_true'] at this
                exact this.1
              have hdisj2 : ∀ z ∈ y :: q2, z ∉ stack ++ [x] := by
                intro z hz
                simp only [List.mem_append, List.mem_singleton]
                rintro (hzs | hzx)
                · exact hdisj z (List.mem_cons_of_mem _ hz) hzs
                · subst hzx
                  rw [contains_false_iff] at hxnotin
                  exact hxnotin hz
              have hlast2 : (succs g ((y :: q2).getLast (by simp))).isEmpty = true := by
                have hgl : (x :: y :: q2).getLast (by simp) =
                    (y :: q2).getLast (by simp) := List.getLast_cons (by simp)
                rw [hgl] at hlast
                exact hlast
              have hinner := ih _ _ _ _ _ hin y q2 hymem hychain.2 hnodup2 hdisj2 hlast2
              have hmax := dfs_fst_mono _ _ _ _ _ _ h
              simp only [List.length_append, List.length_singleton,
                List.length_cons] at hinner ⊢
              omega
        · have hxss : x ∈ ss := by
            rcases List.mem_cons.mp hx with he | hm
            · exact absurd he hxc
            · exact hm
          by_cases hsucc : (succs g current).isEmpty = true
          · rw [if_pos hsucc] at h
            exact ih _ _ _ _ _ h x q hxss hchain hnodup hdisj hlast
          · rw [if_neg hsucc] at h
            cases hin : dfs_list f g (succs g current) (stack ++ [current]) st with
            | none => rw [hin] at h; exact absurd h (by simp)
            | some st1 =>
              rw [hin] at h
              exact ih _ _ _ _ _ h x q hxss hchain hnodup hdisj hlast

end ReportMarkdown
namespace ReportMarkdown

theorem StackOK_sub {entries : List (List Char)} {g : Graph}
    {stack ns ns2 : List (List Char)} (hok : StackOK entries g stack ns)
    (hsub : ∀ n ∈ ns2, n ∈ ns) : StackOK entries g stack ns2 := by
  rcases hok with ⟨h1, h2, h3, h4⟩
  refine ⟨h1, h2, h3, ?_⟩
  cases hgl : stack.getLast? with
  | none =>
    simp only [hgl] at h4 ⊢
    exact fun n hn => h4 n (hsub n hn)
  | some last =>
    simp only [hgl] at h4 ⊢
    exact fun n hn => h4 n (hsub n hn)

theorem stack_push_ok {entries : List (List Char)} {g : Graph}
    {stack ns : List (List Char)} {current : List Char}
    (hok : StackOK entries g stack ns) (hcur : stack.contains current = false)
    (hmem : current ∈ ns) :
    nodupB (stack ++ [current]) = true ∧
    is_chain g (stack ++ [current]) = true ∧
    (∀ e, (stack ++ [current]).head? = some e → entries.contains e = true) ∧
    (stack ++ [current]).getLast? = some current := by
  rcases hok with ⟨h1, h2, h3, h4⟩
  refine ⟨nodupB_append_singleton h1 hcur, ?_, ?_, List.getLast?_concat stack⟩
  · apply is_chain_append_singleton h2
    intro last hl
    simp only [hl] at h4
    exact h4 current hmem
  · intro e he
    cases stack with
    | nil =>
      simp only [List.nil_append, List.head?_cons, Option.some.injEq] at he
      subst he
      simp only [List.getLast?_nil] at h4
      exact h4 current hmem
    | cons y t =>
      simp only [List.cons_append, List.head?_cons, Option.some.injEq] at he
      subst he
      exact h3 y rfl

theorem stack_push_dead_end {entries : List (List Char)} {g : Graph}
    {stack ns : List (List Char)} {current : List Char}
    (hok : StackOK entries g stack ns) (hcur : stack.contains current = false)
    (hmem : current ∈ ns) (hsucc : (succs g current).isEmpty = true) :
    dead_end_chain entries g (stack ++ [current]) = true := by
  obtain ⟨hnd, hch, hhd, hgl⟩ := stack_push_ok hok hcur hmem
  obtain ⟨e, t, hp⟩ : ∃ e t, stack ++ [current] = e :: t := by
    cases stack with
    | nil => exact ⟨current, [], rfl⟩
    | cons y t0 => exact ⟨y, t0 ++ [current], rfl⟩
  rw [hp] at hnd hch hhd hgl ⊢
  have hglast : (e :: t).getLast (by simp) = current := by
    have := List.getLast?_eq_getLast (e :: t) (by simp)
    rw [hgl] at this
    exact (Option.some.injEq _ _ ▸ this.symm)
  simp only [dead_end_chain, Bool.and_eq_true]
  refine ⟨⟨⟨hhd e rfl, hch⟩, hnd⟩, ?_⟩
  rw [hglast]
  exact hsucc

theorem record_leaf_good {entries : List (List Char)} {g : Graph} {st : DfsSt}
    {stack2 : List (List Char)}
    (hde : dead_end_chain entries g stack2 = true)
    (hgood : GoodSt entries g st) : GoodSt entries g (record_leaf st stack2) := by
  unfold GoodSt record_leaf
  dsimp only
  split
  · right; exact ⟨stack2, hde, rfl⟩
  · split
    · exact hgood
    · exact hgood

theorem dfs_sound :
    ∀ (f : Nat) (entries : List (List Char)) (g : Graph)
      (ns stack : List (List Char)) (st st2 : DfsSt),
      dfs_list f g ns stack st = some st2 →
      StackOK entries g stack ns →
      GoodSt entries g st → GoodSt entries g st2 := by
  intro f
  induction f with
  | zero => intro entries g ns stack st st2 h; simp [dfs_list] at h
  | succ f ih =>
    intro entries g ns stack st st2 h hok hgood
    cases ns with
    | nil =>
      simp only [dfs_list, Option.some.injEq] at h
      subst h; exact hgood
    | cons current ss =>
      have hokss : StackOK entries g stack ss :=
        StackOK_sub hok (fun n hn => List.mem_cons_of_mem _ hn)
      simp only [dfs_list] at h
      by_cases hcur : stack.contains current = true
      · rw [if_pos hcur] at h
        exact ih _ _ _ _ _ _ h hokss hgood
      · rw [if_neg hcur] at h
        have hcur2 : stack.contains current = false := by
          simpa using hcur
        by_cases hsucc : (succs g current).isEmpty = true
        · rw [if_pos hsucc] at h
          have hde := stack_push_dead_end hok hcur2 (by simp) hsucc
          exact ih _ _ _ _ _ _ h hokss (record_leaf_good hde hgood)
        · rw [if_neg hsucc] at h
          cases hin : dfs_list f g (succs g current) (stack ++ [current]) st with
          | none => rw [hin] at h; exact absurd h (by simp)
          | some st1 =>
            rw [hin] at h
            obtain ⟨hnd, hch, hhd, hgl⟩ := stack_push_ok hok hcur2 (by simp)
            have hok2 : StackOK entries g (stack ++ [current]) (succs g current) := by
              refine ⟨hnd, hch, hhd, ?_⟩
              simp only [hgl]
              exact fun n hn => mem_contains hn
            exact ih _ _ _ _ _ _ h hokss (ih _ _ _ _ _ _ hin hok2 hgood)

end ReportMarkdown
/-- C9: longest-chain approximation, corrected. The original claim equates
the computed result with the maximum depth reached by the traversal, which
the cyclic counterexample refutes: on a graph whose every branch closes a
cycle, the traversal reaches depth 3 yet reports 0, because a chain length
is recorded only at successorless nodes. What `compute_longest_paths`
actually guarantees: the traversal terminates (some fuel suffices), and
any successful run returns at most five example chains, each of exactly
the recorded maximal length; the recorded maximum bounds the length of
every completed dead-end chain (a repeat-free chain from an entry point,
following sorted-successor edges, ending at a node with no successors)
and, unless it is zero, is attained by one of them. -/
theorem c9_longest_chain_amended (entry_points : List (List Char))
    (g : ReportMarkdown.Graph) :
    (∃ f st, ReportMarkdown.compute_longest_paths_fuel f entry_points g = some st) ∧
    ∀ (f : Nat) (st : ReportMarkdown.DfsSt),
      ReportMarkdown.compute_longest_paths_fuel f entry_points g = some st →
      st.2.length ≤ 5 ∧
      (∀ ch ∈ st.2, ch.length = st.1) ∧
      (∀ p, ReportMarkdown.dead_end_chain entry_points g p = true →
        p.length ≤ st.1) ∧
      (st.1 = 0 ∨ ∃ p, ReportMarkdown.dead_end_chain entry_points g p = true ∧
        p.length = st.1) := by
  constructor
  · obtain ⟨f, st, hf⟩ := ReportMarkdown.dfs_exists (ReportMarkdown.keys_not_on g [])
      g [] (Nat.le_refl _) entry_points (0, [])
    exact ⟨f, st, hf⟩
  · intro f st h
    unfold ReportMarkdown.compute_longest_paths_fuel at h
    have hinv : ReportMarkdown.ExInv st :=
      ReportMarkdown.dfs_ExInv f g entry_points [] (0, []) st h ⟨by simp, by simp⟩
    refine ⟨hinv.1, hinv.2, ?_, ?_⟩
    · intro p hp
      cases p with
      | nil => simp [ReportMarkdown.dead_end_chain] at hp
      | cons e t =>
        simp only [ReportMarkdown.dead_end_chain, Bool.and_eq_true] at hp
        have hmem : e ∈ entry_points := AnalysisCore.contains_mem hp.1.1.1
        have hcomp := ReportMarkdown.dfs_complete f g entry_points [] (0, []) st h
          e t hmem hp.1.1.2 hp.1.2 (by simp) hp.2
        simpa using hcomp
    · have hok : ReportMarkdown.StackOK entry_points g [] entry_points := by
        unfold ReportMarkdown.StackOK
        refine ⟨rfl, rfl, by simp, ?_⟩
        simp only [List.getLast?_nil]
        exact fun n hn => ReportMarkdown.mem_contains hn
      have hgood := ReportMarkdown.dfs_sound f entry_points g entry_points [] (0, [])
        st h hok (by unfold ReportMarkdown.GoodSt; exact Or.inl rfl)
      unfold ReportMarkdown.GoodSt at hgood
      exact hgood

/-- Witness for C9 on the graph A maps to B and C, C maps to D: nine fuel
suffices and the run returns maximum 3 with the single example chain
A, C, D; the dead-end chain A, B has length 2, within the bound, and the
maximum 3 is attained. -/
theorem c9_longest_chain_amended_witness :
    ReportMarkdown.compute_longest_paths_fuel 9 [Py.S "A"]
      [(Py.S "A", [Py.S "B", Py.S "C"]), (Py.S "C", [Py.S "D"])] =
      some (3, [[Py.S "A", Py.S "C", Py.S "D"]]) ∧
    ReportMarkdown.dead_end_chain [Py.S "A"]
      [(Py.S "A", [Py.S "B", Py.S "C"]), (Py.S "C", [Py.S "D"])]
      [Py.S "A", Py.S "B"] = true ∧
    [Py.S "A", Py.S "B"].length ≤ 3 ∧
    ((3 : Nat) = 0 ∨ ∃ p, ReportMarkdown.dead_end_chain [Py.S "A"]
      [(Py.S "A", [Py.S "B", Py.S "C"]), (Py.S "C", [Py.S "D"])] p = true ∧
      p.length = 3) := by
  have h := (c9_longest_chain_amended [Py.S "A"]
    [(Py.S "A", [Py.S "B", Py.S "C"]), (Py.S "C", [Py.S "D"])]).2 9
    (3, [[Py.S "A", Py.S "C", Py.S "D"]]) (by decide)
  refine ⟨by decide, by decide, ?_, h.2.2.2⟩
  exact h.2.2.1 [Py.S "A", Py.S "B"] (by decide)
